import Mathlib

/-!
# AddSSTable evaluation: bounds verification and statistics reconciliation

A shallow embedding of `pkg/storage/batcheval/cmd_add_sstable.go`
(`EvalAddSSTable` and `verifySSTable`) together with a model of the storage
engine capabilities the two functions consume (iterators, the merging
iterator, the statistics scan, the statistics arithmetic and the checksum).

The two functions of the command are translated statement by statement. The
engine package (`pkg/storage/engine`) is modelled: every definition standing
for a part of it says so in its doc comment. Streams are lists of entries in
stream order; an entry is a record or a position that fails to decode.
-/

namespace AddSSTable

/-! ## Keys -/

/-- Raw key (`roachpb.Key`): a byte string. -/
abbrev Key := List Nat

/-- Modelled from the spec: `bytes.Compare(a, b) < 0` on raw keys, the
"primary key ascending" order of the data model, i.e. the lexicographic order
on byte strings. -/
def keyLess : Key → Key → Bool
  | _, [] => false
  | [], _ :: _ => true
  | a :: as, b :: bs => if a < b then true else if b < a then false else keyLess as bs

/-- Logical time (`hlc.Timestamp`): wall time and logical counter. -/
structure Timestamp where
  WallTime : Int
  Logical : Int
  deriving DecidableEq, Repr

/-- The zero timestamp, carried by keys that are not versioned values (range
bounds in particular). -/
def Timestamp.zero : Timestamp := ⟨0, 0⟩

/-- Modelled from the spec: `hlc.Timestamp.Less`, wall time first, then the
logical counter. -/
def Timestamp.Less (t s : Timestamp) : Bool :=
  decide (t.WallTime < s.WallTime) ||
    (decide (t.WallTime = s.WallTime) && decide (t.Logical < s.Logical))

/-- Versioned key (`engine.MVCCKey`): raw key plus timestamp. -/
structure MVCCKey where
  Key : Key
  Timestamp : Timestamp
  deriving DecidableEq, Repr

/-- Modelled from the spec: `MVCCKey.IsValue`, true when the key carries a
timestamp. -/
def MVCCKey.IsValue (k : MVCCKey) : Bool := k.Timestamp != Timestamp.zero

/-- Modelled from the spec: `MVCCKey.Less` of the engine package. Raw key
ascending; within one raw key the key without timestamp first, then timestamps
descending (most recent version first). -/
def MVCCKey.Less (k l : MVCCKey) : Bool :=
  if keyLess k.Key l.Key then true
  else if keyLess l.Key k.Key then false
  else if !k.IsValue then l.IsValue
  else if !l.IsValue then false
  else l.Timestamp.Less k.Timestamp

/-- Modelled from the spec: `keys.MinKey`, the distinguished minimum sentinel,
the empty byte string. -/
def keys_MinKey : Key := []

/-! ## Records, streams and errors -/

/-- Versioned record (`engine.MVCCKeyValue`): key and opaque value payload. -/
structure MVCCKeyValue where
  Key : MVCCKey
  Value : List Nat
  deriving DecidableEq, Repr

/-- One position of a record stream: either a well-formed record or an entry
that fails to decode when the cursor lands on it. A malformed entry still has
a position in the stream's order. -/
inductive Entry where
  | record (kv : MVCCKeyValue)
  | malformed (pos : MVCCKey)
  deriving DecidableEq, Repr

/-- Position of an entry in the stream order. -/
def Entry.pos : Entry → MVCCKey
  | .record kv => kv.Key
  | .malformed p => p

/-- Whether the entry fails to decode. -/
def Entry.isMalformed : Entry → Bool
  | .record _ => false
  | .malformed _ => true

/-- The two messages `EvalAddSSTable` wraps errors with. -/
inductive WrapMsg where
  | computingExistingStats
  | verifyingSSTableData
  deriving DecidableEq, Repr

/-- Errors of the evaluation. -/
inductive EvalError where
  /-- A stream failed to decode the entry at the given position. -/
  | decode (pos : MVCCKey)
  /-- The table bytes could not be opened as a table at all. -/
  | openTable (code : Nat)
  /-- The message "first key %s not in request range [%s,%s)". -/
  | firstKeyNotInRange (key start endKey : Key)
  /-- The message "last key %s not in request range [%s,%s)". -/
  | lastKeyNotInRange (key start endKey : Key)
  /-- The wrapper `errors.Wrap(err, msg)`. -/
  | wrap (msg : WrapMsg) (cause : EvalError)
  deriving DecidableEq, Repr

/-! ## Statistics -/

/-- Modelled from the spec: `enginepb.MVCCStats`, the counters the spec lists
for a statistics snapshot (key count, key bytes, value bytes, live bytes,
garbage bytes, system bytes). -/
structure MVCCStats where
  KeyCount : Int
  KeyBytes : Int
  ValBytes : Int
  LiveBytes : Int
  GarbageBytes : Int
  SysBytes : Int
  deriving DecidableEq, Repr

/-- The zero-valued statistics (`enginepb.MVCCStats{}`). -/
def MVCCStats.zero : MVCCStats := ⟨0, 0, 0, 0, 0, 0⟩

/-- Modelled from the spec: `MVCCStats.Add`, component-wise addition over every
counter. -/
def MVCCStats.Add (ms oms : MVCCStats) : MVCCStats :=
  { KeyCount := ms.KeyCount + oms.KeyCount
    KeyBytes := ms.KeyBytes + oms.KeyBytes
    ValBytes := ms.ValBytes + oms.ValBytes
    LiveBytes := ms.LiveBytes + oms.LiveBytes
    GarbageBytes := ms.GarbageBytes + oms.GarbageBytes
    SysBytes := ms.SysBytes + oms.SysBytes }

/-- Modelled from the spec: `MVCCStats.Subtract`, component-wise subtraction
over every counter. -/
def MVCCStats.Subtract (ms oms : MVCCStats) : MVCCStats :=
  { KeyCount := ms.KeyCount - oms.KeyCount
    KeyBytes := ms.KeyBytes - oms.KeyBytes
    ValBytes := ms.ValBytes - oms.ValBytes
    LiveBytes := ms.LiveBytes - oms.LiveBytes
    GarbageBytes := ms.GarbageBytes - oms.GarbageBytes
    SysBytes := ms.SysBytes - oms.SysBytes }

/-! ## The engine capabilities -/

/-- Modelled from the spec: the engine capabilities the command treats as
black boxes. `NewMemSSTIterator` turns table bytes into an ordered stream of
entries (or fails), `statsOf` is the statistics formula applied to the records
a scan visited, as of a logical time, and `CRC32` is `util.CRC32`, the 32-bit
checksum function. -/
structure Engine where
  NewMemSSTIterator : List Nat → Except EvalError (List Entry)
  statsOf : Int → List MVCCKeyValue → MVCCStats
  CRC32 : List Nat → Nat

/-- Modelled from the spec: `engine.SimpleIterator`, a replayable cursor over
an ordered stream. `entries` is the whole stream, `cur` what remains from the
cursor on (its head is the current entry). -/
structure SimpleIterator where
  entries : List Entry
  cur : List Entry
  deriving DecidableEq, Repr

/-- Modelled from the spec: `Seek`, which places the cursor on the first entry
whose position is not before `key`. -/
def SimpleIterator.Seek (it : SimpleIterator) (key : MVCCKey) : SimpleIterator :=
  { it with cur := it.entries.dropWhile (fun e => e.pos.Less key) }

/-- Modelled from the spec: `Valid`, which reports end-of-stream (`false`) and
decoding errors distinctly. -/
def SimpleIterator.Valid (it : SimpleIterator) : Except EvalError Bool :=
  match it.cur with
  | [] => .ok false
  | .malformed p :: _ => .error (.decode p)
  | .record _ :: _ => .ok true

/-- Modelled from the spec: `UnsafeKey`, the key under the cursor; only
meaningful when the iterator is valid. -/
def SimpleIterator.UnsafeKey (it : SimpleIterator) : MVCCKey :=
  match it.cur with
  | e :: _ => e.pos
  | [] => ⟨[], Timestamp.zero⟩

/-- Modelled from the spec: `batch.NewIterator(IterOptions{UpperBound: ..})`,
a cursor over the existing data that ends before the first key at or after the
upper bound. -/
def NewIterator (batch : List Entry) (upperBound : Key) : SimpleIterator :=
  let es := batch.takeWhile (fun e => keyLess e.pos.Key upperBound)
  { entries := es, cur := es }

/-- Prepend a visited record to the outcome of the rest of a pass; an error of
the rest is the error of the pass. -/
def emit (kv : MVCCKeyValue) :
    Except EvalError (List MVCCKeyValue) → Except EvalError (List MVCCKeyValue)
  | .error err => .error err
  | .ok kvs => .ok (kv :: kvs)

/-- Modelled from the spec: one forward pass of a single stream from its cursor
up to `endKey` (exclusive), collecting the records visited; a decoding error
under the cursor aborts the pass. -/
def scanSimple (endKey : MVCCKey) : List Entry → Except EvalError (List MVCCKeyValue)
  | [] => .ok []
  | .malformed p :: _ => .error (.decode p)
  | .record kv :: rest =>
    if kv.Key.Less endKey then emit kv (scanSimple endKey rest) else .ok []

/-- Modelled from the spec: `Iterator.ComputeStats(start, end, nowNanos)`, the
statistics of one stream alone restricted to `[start, end)`. -/
def SimpleIterator.ComputeStats (eng : Engine) (it : SimpleIterator) (start endKey : MVCCKey)
    (nowNanos : Int) : Except EvalError MVCCStats :=
  match scanSimple endKey (it.Seek start).cur with
  | .error err => .error err
  | .ok kvs => .ok (eng.statsOf nowNanos kvs)

/-- Modelled from the spec: `engine.MakeMultiIterator` over two streams, the
existing data first and the incoming table second. -/
structure MultiIterator where
  existing : SimpleIterator
  incoming : SimpleIterator
  deriving DecidableEq, Repr

/-- Constructor named as in the engine package. -/
def MakeMultiIterator (existingIter dataIter : SimpleIterator) : MultiIterator :=
  ⟨existingIter, dataIter⟩

/-- Modelled from the spec: one forward pass of the merged stream from the two
cursors up to `endKey` (exclusive). The smaller current key is yielded; when
both cursors show the identical key and timestamp the incoming record is
yielded and the existing one skipped; a decoding error under either cursor
aborts the pass at once. -/
def scanMerged (endKey : MVCCKey) :
    List Entry → List Entry → Except EvalError (List MVCCKeyValue)
  | .malformed p :: _, _ => .error (.decode p)
  | [], .malformed p :: _ => .error (.decode p)
  | .record _ :: _, .malformed p :: _ => .error (.decode p)
  | [], [] => .ok []
  | .record x :: as, [] =>
    if x.Key.Less endKey then emit x (scanMerged endKey as []) else .ok []
  | [], .record y :: bs =>
    if y.Key.Less endKey then emit y (scanMerged endKey [] bs) else .ok []
  | .record x :: as, .record y :: bs =>
    if y.Key.Less x.Key then
      if y.Key.Less endKey then emit y (scanMerged endKey (.record x :: as) bs) else .ok []
    else if x.Key.Less y.Key then
      if x.Key.Less endKey then emit x (scanMerged endKey as (.record y :: bs)) else .ok []
    else
      if y.Key.Less endKey then emit y (scanMerged endKey as bs) else .ok []
termination_by a b => a.length + b.length
decreasing_by all_goals simp_wf <;> omega

/-- Modelled from the spec: `engine.ComputeStatsGo(iter, start, end, nowNanos)`
driven over the merging iterator: both streams are sought to `start`, the
merged stream is walked up to `endKey`, and the statistics formula is applied
to the records visited. -/
def ComputeStatsGo (eng : Engine) (mergedIter : MultiIterator) (start endKey : MVCCKey)
    (nowNanos : Int) : Except EvalError MVCCStats :=
  match scanMerged endKey (mergedIter.existing.Seek start).cur
      (mergedIter.incoming.Seek start).cur with
  | .error err => .error err
  | .ok kvs => .ok (eng.statsOf nowNanos kvs)

/-! ## The command -/

/-- Translation of `verifySSTable`. -/
def verifySSTable (eng : Engine) (existingIter : SimpleIterator) (data : List Nat)
    (start endKey : MVCCKey) (nowNanos : Int) : Except EvalError MVCCStats :=
  match eng.NewMemSSTIterator data with
  | .error err => .error err
  | .ok table =>
    let dataIter : SimpleIterator := { entries := table, cur := table }
    -- Check that the first key is in the expected range.
    let dataIter := dataIter.Seek ⟨keys_MinKey, Timestamp.zero⟩
    match dataIter.Valid with
    | .error err => .error err
    | .ok ok =>
      if ok && dataIter.UnsafeKey.Less start then
        .error (.firstKeyNotInRange dataIter.UnsafeKey.Key start.Key endKey.Key)
      else
        let mergedIter := MakeMultiIterator existingIter dataIter
        match ComputeStatsGo eng mergedIter start endKey nowNanos with
        | .error err => .error err
        | .ok stats =>
          -- the merged pass has moved `dataIter`; `Seek` repositions it
          let dataIter := dataIter.Seek endKey
          match dataIter.Valid with
          | .error err => .error err
          | .ok ok =>
            if ok && !dataIter.UnsafeKey.Less endKey then
              .error (.lastKeyNotInRange dataIter.UnsafeKey.Key start.Key endKey.Key)
            else .ok stats

/-- The surrounding `context.Context`, reduced to its cancellation state. -/
structure Context where
  cancelled : Bool
  deriving DecidableEq, Repr

/-- The request (`roachpb.AddSSTableRequest`). -/
structure AddSSTableRequest where
  Key : AddSSTable.Key
  EndKey : AddSSTable.Key
  Data : List Nat
  deriving DecidableEq, Repr

/-- The batch header, reduced to the request timestamp. -/
structure Header where
  Timestamp : Timestamp
  deriving DecidableEq, Repr

/-- The command arguments (`CommandArgs`). `Stats` is the value behind the
pointer `cArgs.Stats`, the caller's running statistics. -/
structure CommandArgs where
  Args : AddSSTableRequest
  Header : Header
  Stats : MVCCStats
  deriving DecidableEq, Repr

/-- The replicated result (`storagepb.ReplicatedEvalResult_AddSSTable`). -/
structure Result where
  Data : List Nat
  CRC32 : Nat
  deriving DecidableEq, Repr

/-- What the caller observes after the call: the value now behind
`cArgs.Stats` and the returned `(result, error)` pair. -/
structure Outcome where
  stats : MVCCStats
  ret : Except EvalError Result

/-- The logging calls `log.Eventf(ctx, ..)` and `log.Infof(ctx, ..)`: they
receive the context and produce tracing output only. -/
def log_Eventf (_ctx : Context) : Unit := ()

/-- Translation of `EvalAddSSTable`. `batch` is the existing data as an ordered
stream; `ms` aliases the caller's statistics (`ms := cArgs.Stats` copies the
pointer), so every update to it is visible in the outcome on every return
path. The context is only handed to the logging calls. -/
def EvalAddSSTable (eng : Engine) (ctx : Context) (batch : List Entry) (cArgs : CommandArgs) :
    Outcome :=
  let args := cArgs.Args
  let h := cArgs.Header
  let ms := cArgs.Stats
  let mvccStartKey : MVCCKey := ⟨args.Key, Timestamp.zero⟩
  let mvccEndKey : MVCCKey := ⟨args.EndKey, Timestamp.zero⟩
  let _ : Unit := log_Eventf ctx
  let existingIter := NewIterator batch args.EndKey
  let existingIter := existingIter.Seek mvccStartKey
  match existingIter.Valid with
  | .error err => ⟨ms, .error (.wrap .computingExistingStats err)⟩
  | .ok _ =>
    -- (the `else if ok && ..Less(mvccEndKey)` branch only logs)
    -- This ComputeStats is cheap if the span is empty.
    match existingIter.ComputeStats eng mvccStartKey mvccEndKey h.Timestamp.WallTime with
    | .error err => ⟨ms, .error (.wrap .computingExistingStats err)⟩
    | .ok existingStats =>
      let ms := ms.Subtract existingStats
      -- (`if existingStats.KeyCount > 0` only logs)
      -- `ComputeStats` and the merged pass both seek to the start key first, so
      -- the cursor position left behind by `ComputeStats` is immaterial.
      match verifySSTable eng existingIter args.Data mvccStartKey mvccEndKey
          h.Timestamp.WallTime with
      | .error err => ⟨ms, .error (.wrap .verifyingSSTableData err)⟩
      | .ok stats =>
        let ms := ms.Add stats
        ⟨ms, .ok { Data := args.Data, CRC32 := eng.CRC32 args.Data }⟩


/-! ## Specification-side notions -/

/-- The stream invariant of the data model: strictly increasing positions
(raw key ascending, timestamp descending), hence no duplicates. -/
def Sorted (xs : List Entry) : Prop :=
  xs.Pairwise (fun a b => a.pos.Less b.pos = true)

/-- Membership of a raw key in `[start, endKey)`: start inclusive, end
exclusive. -/
def inRange (start endKey : Key) (k : Key) : Bool :=
  !keyLess k start && keyLess k endKey

/-- A stream restricted to the entries whose raw key lies in
`[start, endKey)`. -/
def restrict (start endKey : Key) (xs : List Entry) : List Entry :=
  xs.filter (fun e => inRange start endKey e.pos.Key)

/-- The records of a stream, in order. -/
def recordsOf : List Entry → List MVCCKeyValue
  | [] => []
  | .record kv :: rest => kv :: recordsOf rest
  | .malformed _ :: rest => recordsOf rest

/-- The merge of two streams as the spec words it: one ordered sequence, and
where both streams hold the identical key and timestamp the entry of the
second (incoming) stream is kept and the first stream's entry dropped. -/
def mergeStreams : List Entry → List Entry → List Entry
  | [], bs => bs
  | a :: as, [] => a :: as
  | a :: as, b :: bs =>
    if b.pos.Less a.pos then b :: mergeStreams (a :: as) bs
    else if a.pos.Less b.pos then a :: mergeStreams as (b :: bs)
    else b :: mergeStreams as bs
termination_by a b => a.length + b.length
decreasing_by all_goals simp_wf <;> omega

/-- The first-key check passes: the table is empty or starts with a record not
below `s`. -/
def FirstOk (s : MVCCKey) (T : List Entry) : Prop :=
  T = [] ∨ ∃ kv rest, T = .record kv :: rest ∧ kv.Key.Less s = false

/-- The existing statistics as the spec words them: the statistics of the
existing data alone restricted to the request range, as of the request
timestamp. -/
def specExistingStats (eng : Engine) (batch : List Entry) (cArgs : CommandArgs) : MVCCStats :=
  eng.statsOf cArgs.Header.Timestamp.WallTime
    (recordsOf (restrict cArgs.Args.Key cArgs.Args.EndKey batch))

/-- The merged statistics as the spec words them: the statistics of the merge
of the existing data and the incoming table over the request range, as of the
request timestamp. -/
def specMergedStats (eng : Engine) (batch table : List Entry) (cArgs : CommandArgs) :
    MVCCStats :=
  eng.statsOf cArgs.Header.Timestamp.WallTime
    (recordsOf (restrict cArgs.Args.Key cArgs.Args.EndKey (mergeStreams batch table)))

/-- The cursor over the existing data as `EvalAddSSTable` builds it: bounded
above by the request's end key and sought to the request's start key. -/
def existingIterOf (batch : List Entry) (args : AddSSTableRequest) : SimpleIterator :=
  (NewIterator batch args.EndKey).Seek ⟨args.Key, Timestamp.zero⟩

/-- A small engine instance used to evaluate the command on concrete inputs:
each table byte `b` below 200 decodes to the record with raw key `[b]`,
timestamp 1 and value `[b]`, any other byte to a malformed entry; the
statistics formula counts records and sums key and value lengths; the checksum
is the byte sum modulo 2^32. -/
def sampleEngine : Engine where
  NewMemSSTIterator := fun data =>
    .ok (data.map fun b =>
      if b < 200 then Entry.record ⟨⟨[b], ⟨1, 0⟩⟩, [b]⟩ else Entry.malformed ⟨[b], ⟨1, 0⟩⟩)
  statsOf := fun _ kvs =>
    { KeyCount := kvs.length
      KeyBytes := (kvs.map fun kv => (kv.Key.Key.length : Int)).sum
      ValBytes := (kvs.map fun kv => (kv.Value.length : Int)).sum
      LiveBytes := 0
      GarbageBytes := 0
      SysBytes := 0 }
  CRC32 := fun d => d.sum % 4294967296

/-- Existing data of the examples: one record with raw key `[3]`. -/
def sampleBatch : List Entry := [.record ⟨⟨[3], ⟨1, 0⟩⟩, [7]⟩]

/-- Command arguments of the examples: the range `[[2], [9])`, the given table
bytes, timestamp 5 and running statistics with non-zero counters. -/
def sampleArgs (data : List Nat) : CommandArgs :=
  ⟨⟨[2], [9], data⟩, ⟨⟨5, 0⟩⟩, ⟨10, 20, 30, 0, 0, 0⟩⟩

/-- Existing data of the examples holding an entry that fails to decode. -/
def sampleBadBatch : List Entry := [.malformed ⟨[3], ⟨1, 0⟩⟩]

/-- Existing data of the examples with records before, inside and around the
keys of the sample tables. -/
def sampleWideBatch : List Entry :=
  [.record ⟨⟨[1], ⟨1, 0⟩⟩, [8]⟩, .record ⟨⟨[3], ⟨1, 0⟩⟩, [7]⟩, .record ⟨⟨[6], ⟨1, 0⟩⟩, [9]⟩]

/-- Existing data of the examples for the tie-break: one record at raw key
`[3]`, timestamp 1, whose value is three bytes long. -/
def sampleTieBatch : List Entry := [.record ⟨⟨[3], ⟨1, 0⟩⟩, [7, 7, 7]⟩]

/-- The stream the sample engine decodes from the bytes `[3, 4, 5]`. -/
def sampleTable : List Entry :=
  [.record ⟨⟨[3], ⟨1, 0⟩⟩, [3]⟩, .record ⟨⟨[4], ⟨1, 0⟩⟩, [4]⟩, .record ⟨⟨[5], ⟨1, 0⟩⟩, [5]⟩]

/-! ## Order theory of keys -/

theorem keyLess_irrefl (a : Key) : keyLess a a = false := by
  induction a with
  | nil => rfl
  | cons x xs ih => simp [keyLess, ih]

theorem keyLess_nil_right (a : Key) : keyLess a [] = false := by
  cases a <;> rfl

theorem keyLess_asymm : ∀ (a b : Key), keyLess a b = true → keyLess b a = false := by
  intro a
  induction a with
  | nil => intro b _; exact keyLess_nil_right b
  | cons x xs ih =>
    intro b h
    cases b with
    | nil => simp [keyLess] at h
    | cons y ys =>
      simp only [keyLess] at h ⊢
      by_cases h1 : x < y
      · have h2 : ¬ y < x := by omega
        simp [h2, h1]
      · by_cases h2 : y < x
        · simp [h1, h2] at h
        · simp only [h1, h2, if_false] at h ⊢
          exact ih ys h

theorem keyLess_trans : ∀ (a b c : Key), keyLess a b = true → keyLess b c = true →
    keyLess a c = true := by
  intro a
  induction a with
  | nil =>
    intro b c hab hbc
    cases c with
    | nil => simp [keyLess_nil_right] at hbc
    | cons z zs => rfl
  | cons x xs ih =>
    intro b c hab hbc
    cases b with
    | nil => simp [keyLess] at hab
    | cons y ys =>
      cases c with
      | nil => simp [keyLess] at hbc
      | cons z zs =>
        simp only [keyLess] at hab hbc ⊢
        by_cases h1 : x < y
        · by_cases h3 : y < z
          · have : x < z := by omega
            simp [this]
          · by_cases h4 : z < y
            · simp [h3, h4] at hbc
            · have : x < z := by omega
              simp [this]
        · by_cases h2 : y < x
          · simp [h1, h2] at hab
          · simp only [h1, h2, if_false] at hab
            have hxy : x = y := by omega
            subst hxy
            by_cases h3 : x < z
            · simp [h3]
            · by_cases h4 : z < x
              · simp [h3, h4] at hbc
              · simp only [h3, h4, if_false] at hbc ⊢
                exact ih ys zs hab hbc

theorem keyLess_total : ∀ (a b : Key), keyLess a b = false → keyLess b a = false → a = b := by
  intro a
  induction a with
  | nil =>
    intro b h _
    cases b with
    | nil => rfl
    | cons y ys => simp [keyLess] at h
  | cons x xs ih =>
    intro b h1 h2
    cases b with
    | nil => simp [keyLess] at h2
    | cons y ys =>
      simp only [keyLess] at h1 h2
      by_cases hxy : x < y
      · simp [hxy] at h1
      · by_cases hyx : y < x
        · simp [hyx] at h2
        · simp only [hxy, hyx, if_false] at h1 h2
          have : x = y := by omega
          rw [this, ih ys h1 h2]

/-- A key not below `b` stays not below anything that `b` is not below. -/
theorem keyLess_false_trans (a b c : Key) (hab : keyLess a b = false)
    (hbc : keyLess b c = false) : keyLess a c = false := by
  cases hac : keyLess a c with
  | false => rfl
  | true =>
    cases hcb : keyLess c b with
    | true => rw [keyLess_trans a c b hac hcb] at hab; cases hab
    | false =>
      have : b = c := keyLess_total b c hbc hcb
      subst this
      rw [hac] at hab; cases hab

/-- Strictly below followed by not above is strictly below. -/
theorem keyLess_of_lt_of_le (a b c : Key) (hab : keyLess a b = true)
    (hcb : keyLess c b = false) : keyLess a c = true := by
  cases hac : keyLess a c with
  | true => rfl
  | false =>
    have := keyLess_false_trans c b a hcb (keyLess_asymm a b hab)
    have h2 := keyLess_total a c hac this
    subst h2
    rw [hab] at hcb; cases hcb

theorem keyLess_of_le_of_lt (a b c : Key) (hba : keyLess b a = false)
    (hbc : keyLess b c = true) : keyLess a c = true := by
  cases hac : keyLess a c with
  | true => rfl
  | false =>
    have h1 := keyLess_false_trans b a c hba hac
    rw [hbc] at h1; cases h1

/-- Against a bound without timestamp, the versioned order is the raw key
order. -/
theorem mvccLess_bound (k : MVCCKey) (s : Key) :
    k.Less ⟨s, Timestamp.zero⟩ = keyLess k.Key s := by
  unfold MVCCKey.Less
  cases h1 : keyLess k.Key s with
  | true => simp
  | false =>
    cases h2 : keyLess s k.Key with
    | true => simp
    | false =>
      simp only [MVCCKey.IsValue]
      by_cases h3 : k.Timestamp = Timestamp.zero <;> simp [h3]

theorem mvccLess_irrefl (a : MVCCKey) : a.Less a = false := by
  obtain ⟨k, w, l⟩ := a
  simp [MVCCKey.Less, MVCCKey.IsValue, Timestamp.Less, Timestamp.zero, keyLess_irrefl]

/-- Raw keys never decrease along the versioned order. -/
theorem mvccLess_key (a b : MVCCKey) (h : a.Less b = true) :
    keyLess b.Key a.Key = false := by
  unfold MVCCKey.Less at h
  cases h1 : keyLess a.Key b.Key with
  | true => exact keyLess_asymm _ _ h1
  | false =>
    cases h2 : keyLess b.Key a.Key with
    | false => rfl
    | true => simp [h1, h2] at h

theorem mvccLess_of_keyLess (a b : MVCCKey) (h : keyLess a.Key b.Key = true) :
    a.Less b = true := by
  simp [MVCCKey.Less, h]

theorem mvccLess_asymm (a b : MVCCKey) (h : a.Less b = true) : b.Less a = false := by
  obtain ⟨ka, wa, la⟩ := a
  obtain ⟨kb, wb, lb⟩ := b
  unfold MVCCKey.Less at h ⊢
  cases h1 : keyLess ka kb with
  | true => simp [keyLess_asymm _ _ h1, h1]
  | false =>
    cases h2 : keyLess kb ka with
    | true => simp [h1, h2] at h
    | false =>
      simp only [h1, h2, if_false, MVCCKey.IsValue, Timestamp.Less, Timestamp.zero] at h ⊢
      by_cases ha : (⟨wa, la⟩ : Timestamp) = ⟨0, 0⟩ <;>
        by_cases hb : (⟨wb, lb⟩ : Timestamp) = ⟨0, 0⟩ <;>
        simp [ha, hb] at h ⊢
      omega

theorem mvccLess_total (a b : MVCCKey) (h1 : a.Less b = false) (h2 : b.Less a = false) :
    a = b := by
  obtain ⟨ka, wa, la⟩ := a
  obtain ⟨kb, wb, lb⟩ := b
  unfold MVCCKey.Less at h1 h2
  cases k1 : keyLess ka kb with
  | true => simp [k1] at h1
  | false =>
    cases k2 : keyLess kb ka with
    | true => simp [k2] at h2
    | false =>
      have hk := keyLess_total ka kb k1 k2
      subst hk
      simp only [k1, if_false, MVCCKey.IsValue, Timestamp.Less, Timestamp.zero] at h1 h2
      by_cases ha : (⟨wa, la⟩ : Timestamp) = ⟨0, 0⟩ <;>
        by_cases hb : (⟨wb, lb⟩ : Timestamp) = ⟨0, 0⟩ <;>
        simp [ha, hb] at h1 h2
      · rw [ha, hb]
      · have : wa = wb ∧ la = lb := by omega
        rw [this.1, this.2]

theorem mvccLess_trans (a b c : MVCCKey) (hab : a.Less b = true) (hbc : b.Less c = true) :
    a.Less c = true := by
  have kab := mvccLess_key a b hab
  have kbc := mvccLess_key b c hbc
  cases k1 : keyLess a.Key b.Key with
  | true => exact mvccLess_of_keyLess a c (keyLess_of_lt_of_le _ _ _ k1 kbc)
  | false =>
    cases k2 : keyLess b.Key c.Key with
    | true => exact mvccLess_of_keyLess a c (keyLess_of_le_of_lt _ _ _ kab k2)
    | false =>
      obtain ⟨ka, wa, la⟩ := a
      obtain ⟨kb, wb, lb⟩ := b
      obtain ⟨kc, wc, lc⟩ := c
      have e1 : ka = kb := keyLess_total ka kb k1 kab
      have e2 : kb = kc := keyLess_total kb kc k2 kbc
      subst e1 e2
      simp only [MVCCKey.Less, keyLess_irrefl, if_false, MVCCKey.IsValue, Timestamp.Less,
        Timestamp.zero] at hab hbc ⊢
      by_cases ha : (⟨wa, la⟩ : Timestamp) = ⟨0, 0⟩ <;>
        by_cases hb : (⟨wb, lb⟩ : Timestamp) = ⟨0, 0⟩ <;>
        by_cases hc : (⟨wc, lc⟩ : Timestamp) = ⟨0, 0⟩ <;>
        simp [ha, hb, hc] at hab hbc ⊢
      omega

/-- Not below `b` composed with not below `c`. -/
theorem mvccLess_false_trans (a b c : MVCCKey) (hab : a.Less b = false)
    (hbc : b.Less c = false) : a.Less c = false := by
  cases hac : a.Less c with
  | false => rfl
  | true =>
    cases hcb : c.Less b with
    | true => rw [mvccLess_trans a c b hac hcb] at hab; cases hab
    | false =>
      have : b = c := mvccLess_total b c hbc hcb
      subst this
      rw [hac] at hab; cases hab

theorem mvccLess_of_lt_of_le (a b c : MVCCKey) (hab : a.Less b = true)
    (hcb : c.Less b = false) : a.Less c = true := by
  cases hac : a.Less c with
  | true => rfl
  | false =>
    have := mvccLess_false_trans c b a hcb (mvccLess_asymm a b hab)
    have h2 := mvccLess_total a c hac this
    subst h2
    rw [hab] at hcb; cases hcb


theorem emit_ok_iff (kv : MVCCKeyValue) (r : Except EvalError (List MVCCKeyValue))
    (kvs : List MVCCKeyValue) :
    emit kv r = .ok kvs ↔ ∃ t, r = .ok t ∧ kvs = kv :: t := by
  cases r with
  | error e => simp [emit]
  | ok t => simp [emit, eq_comm]

/-! ## The single-stream pass -/

theorem scanSimple_ok (endKey : MVCCKey) (xs : List Entry) (kvs : List MVCCKeyValue)
    (h : scanSimple endKey xs = .ok kvs) (hb : ∀ e ∈ xs, e.pos.Less endKey = true) :
    (∀ e ∈ xs, e.isMalformed = false) ∧ kvs = recordsOf xs := by
  induction xs using scanSimple.induct endKey generalizing kvs with
  | case1 =>
    simp [scanSimple] at h
    simp [recordsOf, h]
  | case2 p tail => simp [scanSimple] at h
  | case3 kv tail hlt ih =>
    simp only [scanSimple, hlt, if_true] at h
    obtain ⟨t, ht, rfl⟩ := (emit_ok_iff _ _ _).1 h
    have := ih t ht (fun e he => hb e (List.mem_cons_of_mem _ he))
    refine ⟨?_, ?_⟩
    · intro e he
      rcases List.mem_cons.1 he with rfl | he
      · rfl
      · exact this.1 e he
    · simp [recordsOf, this.2]
  | case4 kv tail hlt =>
    exact absurd (hb (.record kv) (List.mem_cons_self _ _)) hlt

theorem scanSimple_of_records (endKey : MVCCKey) (xs : List Entry)
    (hr : ∀ e ∈ xs, e.isMalformed = false) (hb : ∀ e ∈ xs, e.pos.Less endKey = true) :
    scanSimple endKey xs = .ok (recordsOf xs) := by
  induction xs with
  | nil => rfl
  | cons e rest ih =>
    have ih := ih (fun e he => hr e (List.mem_cons_of_mem _ he))
      (fun e he => hb e (List.mem_cons_of_mem _ he))
    cases e with
    | malformed p => simpa [Entry.isMalformed] using hr _ (List.mem_cons_self _ _)
    | record kv =>
      have hlt : kv.Key.Less endKey = true := hb _ (List.mem_cons_self _ _)
      simp [scanSimple, hlt, ih, emit, recordsOf]

theorem scanSimple_error (endKey : MVCCKey) (xs : List Entry) (err : EvalError)
    (h : scanSimple endKey xs = .error err) :
    ∃ p, Entry.malformed p ∈ xs ∧ err = .decode p := by
  induction xs using scanSimple.induct endKey with
  | case1 => simp [scanSimple] at h
  | case2 p tail =>
    simp [scanSimple] at h
    exact ⟨p, List.mem_cons_self _ _, h.symm⟩
  | case3 kv tail hlt ih =>
    simp only [scanSimple, hlt, if_true] at h
    cases hs : scanSimple endKey tail with
    | ok t => simp [hs, emit] at h
    | error e2 =>
      simp [hs, emit] at h
      obtain ⟨p, hp, he⟩ := ih (h ▸ hs)
      exact ⟨p, List.mem_cons_of_mem _ hp, he⟩
  | case4 kv tail hlt => simp [scanSimple, hlt] at h

/-! ## The merged pass -/

theorem mergeStreams_nil_right (a : List Entry) : mergeStreams a [] = a := by
  cases a <;> simp [mergeStreams]

theorem mergeStreams_nil_left (b : List Entry) : mergeStreams [] b = b := by
  simp [mergeStreams]

theorem scanMerged_ok (endKey : MVCCKey) (a b : List Entry) (kvs : List MVCCKeyValue)
    (h : scanMerged endKey a b = .ok kvs)
    (ha : ∀ e ∈ a, e.pos.Less endKey = true) (hb : ∀ e ∈ b, e.pos.Less endKey = true) :
    (∀ e ∈ a, e.isMalformed = false) ∧ (∀ e ∈ b, e.isMalformed = false) ∧
      kvs = recordsOf (mergeStreams a b) := by
  induction a, b using scanMerged.induct endKey generalizing kvs with
  | case1 p tail x => simp [scanMerged] at h
  | case2 p tail => simp [scanMerged] at h
  | case3 kv tail p tail2 => simp [scanMerged] at h
  | case4 =>
    simp [scanMerged] at h
    simp [mergeStreams, recordsOf, h]
  | case5 x as hx ih =>
    simp only [scanMerged, hx, if_true] at h
    obtain ⟨t, ht, rfl⟩ := (emit_ok_iff _ _ _).1 h
    obtain ⟨h1, _, h3⟩ := ih t ht (fun e he => ha e (List.mem_cons_of_mem _ he)) hb
    refine ⟨?_, by simp, ?_⟩
    · intro e he
      rcases List.mem_cons.1 he with rfl | he
      · rfl
      · exact h1 e he
    · rw [mergeStreams_nil_right] at h3 ⊢
      simp [recordsOf, h3]
  | case6 x as hx => exact absurd (ha (.record x) (List.mem_cons_self _ _)) hx
  | case7 y bs hy ih =>
    simp only [scanMerged, hy, if_true] at h
    obtain ⟨t, ht, rfl⟩ := (emit_ok_iff _ _ _).1 h
    obtain ⟨_, h2, h3⟩ := ih t ht ha (fun e he => hb e (List.mem_cons_of_mem _ he))
    refine ⟨by simp, ?_, ?_⟩
    · intro e he
      rcases List.mem_cons.1 he with rfl | he
      · rfl
      · exact h2 e he
    · rw [mergeStreams_nil_left] at h3 ⊢
      simp [recordsOf, h3]
  | case8 y bs hy => exact absurd (hb (.record y) (List.mem_cons_self _ _)) hy
  | case9 x as y bs hyx hy ih =>
    simp only [scanMerged, hyx, hy, if_true] at h
    obtain ⟨t, ht, rfl⟩ := (emit_ok_iff _ _ _).1 h
    obtain ⟨h1, h2, h3⟩ := ih t ht ha (fun e he => hb e (List.mem_cons_of_mem _ he))
    refine ⟨h1, ?_, ?_⟩
    · intro e he
      rcases List.mem_cons.1 he with rfl | he
      · rfl
      · exact h2 e he
    · have : (Entry.record y).pos.Less (Entry.record x).pos = true := hyx
      rw [mergeStreams, if_pos this]
      simp [recordsOf, h3]
  | case10 x as y bs hyx hy => exact absurd (hb (.record y) (List.mem_cons_self _ _)) hy
  | case11 x as y bs hyx hxy hx ih =>
    simp only [scanMerged, hyx, hxy, hx, if_true] at h
    obtain ⟨t, ht, rfl⟩ := (emit_ok_iff _ _ _).1 h
    obtain ⟨h1, h2, h3⟩ := ih t ht (fun e he => ha e (List.mem_cons_of_mem _ he)) hb
    refine ⟨?_, h2, ?_⟩
    · intro e he
      rcases List.mem_cons.1 he with rfl | he
      · rfl
      · exact h1 e he
    · have n1 : ¬ (Entry.record y).pos.Less (Entry.record x).pos = true := hyx
      have n2 : (Entry.record x).pos.Less (Entry.record y).pos = true := hxy
      rw [mergeStreams, if_neg n1, if_pos n2]
      simp [recordsOf, h3]
  | case12 x as y bs hyx hxy hx => exact absurd (ha (.record x) (List.mem_cons_self _ _)) hx
  | case13 x as y bs hyx hxy hy ih =>
    simp only [scanMerged, hyx, hxy, hy, if_true] at h
    obtain ⟨t, ht, rfl⟩ := (emit_ok_iff _ _ _).1 h
    obtain ⟨h1, h2, h3⟩ := ih t ht (fun e he => ha e (List.mem_cons_of_mem _ he))
      (fun e he => hb e (List.mem_cons_of_mem _ he))
    refine ⟨?_, ?_, ?_⟩
    · intro e he
      rcases List.mem_cons.1 he with rfl | he
      · rfl
      · exact h1 e he
    · intro e he
      rcases List.mem_cons.1 he with rfl | he
      · rfl
      · exact h2 e he
    · have n1 : ¬ (Entry.record y).pos.Less (Entry.record x).pos = true := hyx
      have n2 : ¬ (Entry.record x).pos.Less (Entry.record y).pos = true := hxy
      rw [mergeStreams, if_neg n1, if_neg n2]
      simp [recordsOf, h3]
  | case14 x as y bs hyx hxy hy => exact absurd (hb (.record y) (List.mem_cons_self _ _)) hy

theorem scanMerged_of_records (endKey : MVCCKey) (a b : List Entry)
    (hra : ∀ e ∈ a, e.isMalformed = false) (hrb : ∀ e ∈ b, e.isMalformed = false)
    (ha : ∀ e ∈ a, e.pos.Less endKey = true) (hb : ∀ e ∈ b, e.pos.Less endKey = true) :
    scanMerged endKey a b = .ok (recordsOf (mergeStreams a b)) := by
  induction a, b using scanMerged.induct endKey with
  | case1 p tail x => simpa [Entry.isMalformed] using hra _ (List.mem_cons_self _ _)
  | case2 p tail => simpa [Entry.isMalformed] using hrb _ (List.mem_cons_self _ _)
  | case3 kv tail p tail2 => simpa [Entry.isMalformed] using hrb _ (List.mem_cons_self _ _)
  | case4 => simp [scanMerged, mergeStreams, recordsOf]
  | case5 x as hx ih =>
    have ih := ih (fun e he => hra e (List.mem_cons_of_mem _ he)) hrb
      (fun e he => ha e (List.mem_cons_of_mem _ he)) hb
    rw [mergeStreams_nil_right] at ih ⊢
    simp [scanMerged, hx, ih, emit, recordsOf]
  | case6 x as hx => exact absurd (ha (.record x) (List.mem_cons_self _ _)) hx
  | case7 y bs hy ih =>
    have ih := ih hra (fun e he => hrb e (List.mem_cons_of_mem _ he)) ha
      (fun e he => hb e (List.mem_cons_of_mem _ he))
    rw [mergeStreams_nil_left] at ih ⊢
    simp [scanMerged, hy, ih, emit, recordsOf]
  | case8 y bs hy => exact absurd (hb (.record y) (List.mem_cons_self _ _)) hy
  | case9 x as y bs hyx hy ih =>
    have ih := ih hra (fun e he => hrb e (List.mem_cons_of_mem _ he)) ha
      (fun e he => hb e (List.mem_cons_of_mem _ he))
    have : (Entry.record y).pos.Less (Entry.record x).pos = true := hyx
    rw [mergeStreams, if_pos this]
    simp [scanMerged, hyx, hy, ih, emit, recordsOf]
  | case10 x as y bs hyx hy => exact absurd (hb (.record y) (List.mem_cons_self _ _)) hy
  | case11 x as y bs hyx hxy hx ih =>
    have ih := ih (fun e he => hra e (List.mem_cons_of_mem _ he)) hrb
      (fun e he => ha e (List.mem_cons_of_mem _ he)) hb
    have n1 : ¬ (Entry.record y).pos.Less (Entry.record x).pos = true := hyx
    have n2 : (Entry.record x).pos.Less (Entry.record y).pos = true := hxy
    rw [mergeStreams, if_neg n1, if_pos n2]
    simp [scanMerged, hyx, hxy, hx, ih, emit, recordsOf]
  | case12 x as y bs hyx hxy hx => exact absurd (ha (.record x) (List.mem_cons_self _ _)) hx
  | case13 x as y bs hyx hxy hy ih =>
    have ih := ih (fun e he => hra e (List.mem_cons_of_mem _ he))
      (fun e he => hrb e (List.mem_cons_of_mem _ he))
      (fun e he => ha e (List.mem_cons_of_mem _ he))
      (fun e he => hb e (List.mem_cons_of_mem _ he))
    have n1 : ¬ (Entry.record y).pos.Less (Entry.record x).pos = true := hyx
    have n2 : ¬ (Entry.record x).pos.Less (Entry.record y).pos = true := hxy
    rw [mergeStreams, if_neg n1, if_neg n2]
    simp [scanMerged, hyx, hxy, hy, ih, emit, recordsOf]
  | case14 x as y bs hyx hxy hy => exact absurd (hb (.record y) (List.mem_cons_self _ _)) hy

theorem emit_error_iff (kv : MVCCKeyValue) (r : Except EvalError (List MVCCKeyValue))
    (err : EvalError) : emit kv r = .error err ↔ r = .error err := by
  cases r <;> simp [emit]

/-- Every error of the merged pass is a decoding error of one of the two
streams. -/
theorem scanMerged_error (endKey : MVCCKey) (a b : List Entry) (err : EvalError)
    (h : scanMerged endKey a b = .error err) :
    ∃ p, err = .decode p ∧ (Entry.malformed p ∈ a ∨ Entry.malformed p ∈ b) := by
  induction a, b using scanMerged.induct endKey with
  | case1 p tail x =>
    simp [scanMerged] at h
    exact ⟨p, h.symm, Or.inl (List.mem_cons_self _ _)⟩
  | case2 p tail =>
    simp [scanMerged] at h
    exact ⟨p, h.symm, Or.inr (List.mem_cons_self _ _)⟩
  | case3 kv tail p tail2 =>
    simp [scanMerged] at h
    exact ⟨p, h.symm, Or.inr (List.mem_cons_self _ _)⟩
  | case4 => simp [scanMerged] at h
  | case5 x as hx ih =>
    simp only [scanMerged, hx, if_true, emit_error_iff] at h
    obtain ⟨p, hp, hm⟩ := ih h
    exact ⟨p, hp, hm.imp (List.mem_cons_of_mem _) id⟩
  | case6 x as hx => simp [scanMerged, hx] at h
  | case7 y bs hy ih =>
    simp only [scanMerged, hy, if_true, emit_error_iff] at h
    obtain ⟨p, hp, hm⟩ := ih h
    exact ⟨p, hp, hm.imp id (List.mem_cons_of_mem _)⟩
  | case8 y bs hy => simp [scanMerged, hy] at h
  | case9 x as y bs hyx hy ih =>
    simp only [scanMerged, hyx, hy, if_true, emit_error_iff] at h
    obtain ⟨p, hp, hm⟩ := ih h
    exact ⟨p, hp, hm.imp id (List.mem_cons_of_mem _)⟩
  | case10 x as y bs hyx hy => simp [scanMerged, hyx, hy] at h
  | case11 x as y bs hyx hxy hx ih =>
    simp only [scanMerged, hyx, hxy, hx, if_true, if_false, Bool.false_eq_true, emit_error_iff] at h
    obtain ⟨p, hp, hm⟩ := ih h
    exact ⟨p, hp, hm.imp (List.mem_cons_of_mem _) id⟩
  | case12 x as y bs hyx hxy hx => simp [scanMerged, hyx, hxy, hx] at h
  | case13 x as y bs hyx hxy hy ih =>
    simp only [scanMerged, hyx, hxy, hy, if_true, if_false, Bool.false_eq_true, emit_error_iff] at h
    obtain ⟨p, hp, hm⟩ := ih h
    exact ⟨p, hp, hm.imp (List.mem_cons_of_mem _) (List.mem_cons_of_mem _)⟩
  | case14 x as y bs hyx hxy hy => simp [scanMerged, hyx, hxy, hy] at h

/-- When the merged pass succeeds, the first entry of the incoming stream at or
after `endKey` (if any) has been decoded: it is a record. -/
theorem scanMerged_ok_landing (endKey : MVCCKey) (a b : List Entry) (kvs : List MVCCKeyValue)
    (h : scanMerged endKey a b = .ok kvs) (p : MVCCKey) (rest : List Entry) :
    b.dropWhile (fun e => e.pos.Less endKey) ≠ .malformed p :: rest := by
  induction a, b using scanMerged.induct endKey generalizing kvs with
  | case1 p tail x => simp [scanMerged] at h
  | case2 p tail => simp [scanMerged] at h
  | case3 kv tail p tail2 => simp [scanMerged] at h
  | case4 => simp
  | case5 x as hx ih => simp
  | case6 x as hx => simp
  | case7 y bs hy ih =>
    simp only [scanMerged, hy, if_true] at h
    obtain ⟨t, ht, rfl⟩ := (emit_ok_iff _ _ _).1 h
    have hy2 : (Entry.record y).pos.Less endKey = true := hy
    simpa [List.dropWhile, hy2] using ih t ht
  | case8 y bs hy =>
    have hy2 : ¬ (Entry.record y).pos.Less endKey = true := hy
    simp [List.dropWhile, hy2]
  | case9 x as y bs hyx hy ih =>
    simp only [scanMerged, hyx, hy, if_true] at h
    obtain ⟨t, ht, rfl⟩ := (emit_ok_iff _ _ _).1 h
    have hy2 : (Entry.record y).pos.Less endKey = true := hy
    simpa [List.dropWhile, hy2] using ih t ht
  | case10 x as y bs hyx hy =>
    have hy2 : ¬ (Entry.record y).pos.Less endKey = true := hy
    simp [List.dropWhile, hy2]
  | case11 x as y bs hyx hxy hx ih =>
    simp only [scanMerged, hyx, hxy, hx, if_true] at h
    obtain ⟨t, ht, rfl⟩ := (emit_ok_iff _ _ _).1 h
    exact ih t ht
  | case12 x as y bs hyx hxy hx =>
    have hy2 : ¬ (Entry.record y).pos.Less endKey = true := by
      intro hy
      exact hx (mvccLess_trans _ _ _ hxy hy)
    simp [List.dropWhile, hy2]
  | case13 x as y bs hyx hxy hy ih =>
    simp only [scanMerged, hyx, hxy, hy, if_true] at h
    obtain ⟨t, ht, rfl⟩ := (emit_ok_iff _ _ _).1 h
    have hy2 : (Entry.record y).pos.Less endKey = true := hy
    simpa [List.dropWhile, hy2] using ih t ht
  | case14 x as y bs hyx hxy hy =>
    have hy2 : ¬ (Entry.record y).pos.Less endKey = true := hy
    simp [List.dropWhile, hy2]

/-! ## Seeking -/

theorem pos_record (kv : MVCCKeyValue) : (Entry.record kv).pos = kv.Key := rfl

theorem pos_malformed (p : MVCCKey) : (Entry.malformed p).pos = p := rfl


/-- Seeking to the minimum key lands on the very first entry of the stream. -/
theorem dropWhile_minKey (T : List Entry) :
    T.dropWhile (fun e => e.pos.Less ⟨keys_MinKey, Timestamp.zero⟩) = T := by
  cases T with
  | nil => rfl
  | cons e rest =>
    have : e.pos.Less ⟨keys_MinKey, Timestamp.zero⟩ = false := by
      rw [mvccLess_bound]; exact keyLess_nil_right _
    simp [List.dropWhile, this]

theorem dropWhile_head_false {α : Type} (p : α → Bool) (x : α) (xs : List α)
    (h : p x = false) : (x :: xs).dropWhile p = x :: xs := by
  simp [List.dropWhile, h]

/-! ## The return paths of `verifySSTable` -/

theorem verifySSTable_open_error (eng : Engine) (it : SimpleIterator) (data : List Nat)
    (s e : MVCCKey) (now : Int) (err : EvalError)
    (hT : eng.NewMemSSTIterator data = .error err) :
    verifySSTable eng it data s e now = .error err := by
  simp [verifySSTable, hT]

theorem verifySSTable_first_malformed (eng : Engine) (it : SimpleIterator) (data : List Nat)
    (s e : MVCCKey) (now : Int) (p : MVCCKey) (rest : List Entry)
    (hT : eng.NewMemSSTIterator data = .ok (.malformed p :: rest)) :
    verifySSTable eng it data s e now = .error (.decode p) := by
  simp [verifySSTable, hT, SimpleIterator.Seek, dropWhile_minKey, SimpleIterator.Valid]

theorem verifySSTable_first_below (eng : Engine) (it : SimpleIterator) (data : List Nat)
    (s e : MVCCKey) (now : Int) (kv : MVCCKeyValue) (rest : List Entry)
    (hT : eng.NewMemSSTIterator data = .ok (.record kv :: rest))
    (hlt : kv.Key.Less s = true) :
    verifySSTable eng it data s e now = .error (.firstKeyNotInRange kv.Key.Key s.Key e.Key) := by
  simp [verifySSTable, hT, SimpleIterator.Seek, dropWhile_minKey, SimpleIterator.Valid,
    SimpleIterator.UnsafeKey, pos_record, hlt]

theorem FirstOk.seek {s : MVCCKey} {T : List Entry} (hf : FirstOk s T) :
    T.dropWhile (fun x => x.pos.Less s) = T := by
  rcases hf with rfl | ⟨kv, rest, rfl, hlt⟩
  · rfl
  · exact dropWhile_head_false _ _ _ hlt

theorem verifySSTable_scan_error (eng : Engine) (it : SimpleIterator) (data : List Nat)
    (s e : MVCCKey) (now : Int) (T : List Entry) (err : EvalError)
    (hT : eng.NewMemSSTIterator data = .ok T) (hf : FirstOk s T)
    (hs : scanMerged e (it.entries.dropWhile (fun x => x.pos.Less s)) T = .error err) :
    verifySSTable eng it data s e now = .error err := by
  have hseek := hf.seek
  rcases hf with rfl | ⟨kv, rest, rfl, hlt⟩
  · simp [verifySSTable, hT, SimpleIterator.Seek, SimpleIterator.Valid,
      ComputeStatsGo, MakeMultiIterator, hs]
  · simp [verifySSTable, hT, SimpleIterator.Seek, dropWhile_minKey, SimpleIterator.Valid,
      SimpleIterator.UnsafeKey, pos_record, hlt, ComputeStatsGo, MakeMultiIterator, hseek, hs]

theorem verifySSTable_tail (eng : Engine) (it : SimpleIterator) (data : List Nat)
    (s e : MVCCKey) (now : Int) (T : List Entry) (kvs : List MVCCKeyValue)
    (hT : eng.NewMemSSTIterator data = .ok T) (hf : FirstOk s T)
    (hs : scanMerged e (it.entries.dropWhile (fun x => x.pos.Less s)) T = .ok kvs) :
    verifySSTable eng it data s e now =
      match T.dropWhile (fun x => x.pos.Less e) with
      | [] => .ok (eng.statsOf now kvs)
      | .malformed p :: _ => .error (.decode p)
      | .record kv :: _ => .error (.lastKeyNotInRange kv.Key.Key s.Key e.Key) := by
  have hseek := hf.seek
  have hhead : ∀ kv ys, T.dropWhile (fun x => x.pos.Less e) = .record kv :: ys →
      kv.Key.Less e = false := by
    intro kv ys hd
    have := List.head_dropWhile_not (fun x => x.pos.Less e) T
    simp only [hd] at this
    simpa [pos_record] using this (by simp)
  have hmain : verifySSTable eng it data s e now =
      match (({ entries := T, cur := T } : SimpleIterator).Seek e).Valid with
      | .error err => .error err
      | .ok ok =>
        if ok && !(({ entries := T, cur := T } : SimpleIterator).Seek e).UnsafeKey.Less e then
          .error (.lastKeyNotInRange
            (({ entries := T, cur := T } : SimpleIterator).Seek e).UnsafeKey.Key s.Key e.Key)
        else .ok (eng.statsOf now kvs) := by
    rcases hf with rfl | ⟨kv, rest, rfl, hlt⟩
    · simp [verifySSTable, hT, SimpleIterator.Seek, SimpleIterator.Valid,
        ComputeStatsGo, MakeMultiIterator, hs]
    · simp [verifySSTable, hT, SimpleIterator.Seek, dropWhile_minKey, SimpleIterator.Valid,
        SimpleIterator.UnsafeKey, pos_record, hlt, ComputeStatsGo, MakeMultiIterator, hseek, hs]
  rw [hmain]
  simp only [SimpleIterator.Seek, SimpleIterator.Valid, SimpleIterator.UnsafeKey]
  cases hd : T.dropWhile (fun x => x.pos.Less e) with
  | nil => simp
  | cons y ys =>
    cases y with
    | malformed p => simp
    | record kv => simp [pos_record, hhead kv ys hd]

/-- What a successful `verifySSTable` establishes. -/
theorem verifySSTable_ok_inv (eng : Engine) (it : SimpleIterator) (data : List Nat)
    (s e : MVCCKey) (now : Int) (stats : MVCCStats)
    (h : verifySSTable eng it data s e now = .ok stats) :
    ∃ T, eng.NewMemSSTIterator data = .ok T ∧ FirstOk s T ∧
      (∃ kvs, scanMerged e (it.entries.dropWhile (fun x => x.pos.Less s)) T = .ok kvs ∧
        stats = eng.statsOf now kvs) ∧
      (∀ x ∈ T, x.pos.Less e = true) := by
  cases hT : eng.NewMemSSTIterator data with
  | error err => rw [verifySSTable_open_error _ _ _ _ _ _ _ hT] at h; cases h
  | ok T =>
    have hf : FirstOk s T := by
      cases T with
      | nil => exact Or.inl rfl
      | cons x rest =>
        cases x with
        | malformed p => rw [verifySSTable_first_malformed _ _ _ _ _ _ _ _ hT] at h; cases h
        | record kv =>
          cases hlt : kv.Key.Less s with
          | true => rw [verifySSTable_first_below _ _ _ _ _ _ _ _ hT hlt] at h; cases h
          | false => exact Or.inr ⟨kv, rest, rfl, hlt⟩
    refine ⟨T, rfl, hf, ?_⟩
    cases hs : scanMerged e (it.entries.dropWhile (fun x => x.pos.Less s)) T with
    | error err => rw [verifySSTable_scan_error _ _ _ _ _ _ _ _ hT hf hs] at h; cases h
    | ok kvs =>
      rw [verifySSTable_tail _ _ _ _ _ _ _ _ hT hf hs] at h
      cases hd : T.dropWhile (fun x => x.pos.Less e) with
      | nil =>
        simp only [hd] at h
        exact ⟨⟨kvs, rfl, by cases h; rfl⟩, List.dropWhile_eq_nil_iff.1 hd⟩
      | cons y ys =>
        cases y with
        | malformed p => simp [hd] at h
        | record kv => simp [hd] at h

/-! ## The return paths of `EvalAddSSTable` -/

theorem existingIterOf_entries (batch : List Entry) (args : AddSSTableRequest) :
    (existingIterOf batch args).entries =
      batch.takeWhile (fun e => keyLess e.pos.Key args.EndKey) := rfl

theorem existingIterOf_cur (batch : List Entry) (args : AddSSTableRequest) :
    (existingIterOf batch args).cur =
      (batch.takeWhile (fun e => keyLess e.pos.Key args.EndKey)).dropWhile
        (fun e => e.pos.Less ⟨args.Key, Timestamp.zero⟩) := rfl

theorem existingIterOf_seek (batch : List Entry) (args : AddSSTableRequest) :
    ((existingIterOf batch args).Seek ⟨args.Key, Timestamp.zero⟩) = existingIterOf batch args :=
  rfl

/-- The existing-data cursor never shows a key at or after the end key. -/
theorem existingIterOf_below (batch : List Entry) (args : AddSSTableRequest) :
    ∀ e ∈ (existingIterOf batch args).cur, e.pos.Less ⟨args.EndKey, Timestamp.zero⟩ = true := by
  intro e he
  rw [existingIterOf_cur] at he
  have h1 := (List.dropWhile_sublist _).subset he
  have h2 := List.mem_takeWhile_imp h1
  rw [mvccLess_bound]
  exact h2

theorem EvalAddSSTable_eq (eng : Engine) (ctx : Context) (batch : List Entry)
    (cArgs : CommandArgs) :
    EvalAddSSTable eng ctx batch cArgs =
      match (existingIterOf batch cArgs.Args).Valid with
      | .error err => ⟨cArgs.Stats, .error (.wrap .computingExistingStats err)⟩
      | .ok _ =>
        match scanSimple ⟨cArgs.Args.EndKey, Timestamp.zero⟩
            (existingIterOf batch cArgs.Args).cur with
        | .error err => ⟨cArgs.Stats, .error (.wrap .computingExistingStats err)⟩
        | .ok kvs =>
          match verifySSTable eng (existingIterOf batch cArgs.Args) cArgs.Args.Data
              ⟨cArgs.Args.Key, Timestamp.zero⟩ ⟨cArgs.Args.EndKey, Timestamp.zero⟩
              cArgs.Header.Timestamp.WallTime with
          | .error err =>
            ⟨cArgs.Stats.Subtract (eng.statsOf cArgs.Header.Timestamp.WallTime kvs),
              .error (.wrap .verifyingSSTableData err)⟩
          | .ok stats =>
            ⟨(cArgs.Stats.Subtract (eng.statsOf cArgs.Header.Timestamp.WallTime kvs)).Add stats,
              .ok { Data := cArgs.Args.Data, CRC32 := eng.CRC32 cArgs.Args.Data }⟩ := by
  unfold EvalAddSSTable
  simp only []
  change (match (existingIterOf batch cArgs.Args).Valid with
    | .error err => (⟨cArgs.Stats, .error (.wrap .computingExistingStats err)⟩ : Outcome)
    | .ok _ =>
      match (existingIterOf batch cArgs.Args).ComputeStats eng ⟨cArgs.Args.Key, Timestamp.zero⟩
          ⟨cArgs.Args.EndKey, Timestamp.zero⟩ cArgs.Header.Timestamp.WallTime with
      | .error err => ⟨cArgs.Stats, .error (.wrap .computingExistingStats err)⟩
      | .ok existingStats =>
        match verifySSTable eng (existingIterOf batch cArgs.Args) cArgs.Args.Data
            ⟨cArgs.Args.Key, Timestamp.zero⟩ ⟨cArgs.Args.EndKey, Timestamp.zero⟩
            cArgs.Header.Timestamp.WallTime with
        | .error err => ⟨cArgs.Stats.Subtract existingStats,
            .error (.wrap .verifyingSSTableData err)⟩
        | .ok stats => ⟨(cArgs.Stats.Subtract existingStats).Add stats,
            .ok { Data := cArgs.Args.Data, CRC32 := eng.CRC32 cArgs.Args.Data }⟩) = _
  cases (existingIterOf batch cArgs.Args).Valid with
  | error err => rfl
  | ok b =>
    simp only [SimpleIterator.ComputeStats, existingIterOf_seek]
    cases scanSimple ⟨cArgs.Args.EndKey, Timestamp.zero⟩ (existingIterOf batch cArgs.Args).cur with
    | error err => rfl
    | ok kvs => rfl

theorem valid_error_scan (it : SimpleIterator) (e : MVCCKey) (err : EvalError)
    (hv : it.Valid = .error err) : scanSimple e it.cur = .error err := by
  unfold SimpleIterator.Valid at hv
  cases hc : it.cur with
  | nil => simp [hc] at hv
  | cons x rest =>
    cases x with
    | malformed p => simp [hc] at hv; simp [scanSimple, hv]
    | record kv => simp [hc] at hv

theorem EvalAddSSTable_existing_error (eng : Engine) (ctx : Context) (batch : List Entry)
    (cArgs : CommandArgs) (err : EvalError)
    (hs : scanSimple ⟨cArgs.Args.EndKey, Timestamp.zero⟩ (existingIterOf batch cArgs.Args).cur
      = .error err) :
    (EvalAddSSTable eng ctx batch cArgs).stats = cArgs.Stats ∧
      (EvalAddSSTable eng ctx batch cArgs).ret = .error (.wrap .computingExistingStats err) := by
  rw [EvalAddSSTable_eq]
  cases hv : (existingIterOf batch cArgs.Args).Valid with
  | error e2 =>
    have := valid_error_scan _ ⟨cArgs.Args.EndKey, Timestamp.zero⟩ _ hv
    rw [hs] at this
    cases this
    exact ⟨rfl, rfl⟩
  | ok b =>
    simp [hs]

theorem EvalAddSSTable_verify_error (eng : Engine) (ctx : Context) (batch : List Entry)
    (cArgs : CommandArgs) (kvs : List MVCCKeyValue) (err : EvalError)
    (hs : scanSimple ⟨cArgs.Args.EndKey, Timestamp.zero⟩ (existingIterOf batch cArgs.Args).cur
      = .ok kvs)
    (hv : verifySSTable eng (existingIterOf batch cArgs.Args) cArgs.Args.Data
      ⟨cArgs.Args.Key, Timestamp.zero⟩ ⟨cArgs.Args.EndKey, Timestamp.zero⟩
      cArgs.Header.Timestamp.WallTime = .error err) :
    (EvalAddSSTable eng ctx batch cArgs).stats =
        cArgs.Stats.Subtract (eng.statsOf cArgs.Header.Timestamp.WallTime kvs) ∧
      (EvalAddSSTable eng ctx batch cArgs).ret = .error (.wrap .verifyingSSTableData err) := by
  rw [EvalAddSSTable_eq]
  cases hval : (existingIterOf batch cArgs.Args).Valid with
  | error e2 =>
    have := valid_error_scan _ ⟨cArgs.Args.EndKey, Timestamp.zero⟩ _ hval
    rw [hs] at this
    cases this
  | ok b =>
    simp [hs, hv]

theorem EvalAddSSTable_success (eng : Engine) (ctx : Context) (batch : List Entry)
    (cArgs : CommandArgs) (kvs : List MVCCKeyValue) (stats : MVCCStats)
    (hs : scanSimple ⟨cArgs.Args.EndKey, Timestamp.zero⟩ (existingIterOf batch cArgs.Args).cur
      = .ok kvs)
    (hv : verifySSTable eng (existingIterOf batch cArgs.Args) cArgs.Args.Data
      ⟨cArgs.Args.Key, Timestamp.zero⟩ ⟨cArgs.Args.EndKey, Timestamp.zero⟩
      cArgs.Header.Timestamp.WallTime = .ok stats) :
    (EvalAddSSTable eng ctx batch cArgs).stats =
        (cArgs.Stats.Subtract (eng.statsOf cArgs.Header.Timestamp.WallTime kvs)).Add stats ∧
      (EvalAddSSTable eng ctx batch cArgs).ret =
        .ok { Data := cArgs.Args.Data, CRC32 := eng.CRC32 cArgs.Args.Data } := by
  rw [EvalAddSSTable_eq]
  cases hval : (existingIterOf batch cArgs.Args).Valid with
  | error e2 =>
    have := valid_error_scan _ ⟨cArgs.Args.EndKey, Timestamp.zero⟩ _ hval
    rw [hs] at this
    cases this
  | ok b =>
    simp [hs, hv]

/-- Every successful evaluation went through both passes. -/
theorem EvalAddSSTable_ok_inv (eng : Engine) (ctx : Context) (batch : List Entry)
    (cArgs : CommandArgs) (r : Result)
    (h : (EvalAddSSTable eng ctx batch cArgs).ret = .ok r) :
    ∃ kvs stats,
      scanSimple ⟨cArgs.Args.EndKey, Timestamp.zero⟩ (existingIterOf batch cArgs.Args).cur
        = .ok kvs ∧
      verifySSTable eng (existingIterOf batch cArgs.Args) cArgs.Args.Data
        ⟨cArgs.Args.Key, Timestamp.zero⟩ ⟨cArgs.Args.EndKey, Timestamp.zero⟩
        cArgs.Header.Timestamp.WallTime = .ok stats := by
  cases hs : scanSimple ⟨cArgs.Args.EndKey, Timestamp.zero⟩
      (existingIterOf batch cArgs.Args).cur with
  | error err =>
    rw [(EvalAddSSTable_existing_error eng ctx batch cArgs err hs).2] at h
    cases h
  | ok kvs =>
    cases hv : verifySSTable eng (existingIterOf batch cArgs.Args) cArgs.Args.Data
        ⟨cArgs.Args.Key, Timestamp.zero⟩ ⟨cArgs.Args.EndKey, Timestamp.zero⟩
        cArgs.Header.Timestamp.WallTime with
    | error err =>
      rw [(EvalAddSSTable_verify_error eng ctx batch cArgs kvs err hs hv).2] at h
      cases h
    | ok stats => exact ⟨kvs, stats, rfl, rfl⟩

/-! ## Evaluation on the sample inputs -/

theorem sample_existing_scan (data : List Nat) :
    scanSimple ⟨(sampleArgs data).Args.EndKey, Timestamp.zero⟩
      (existingIterOf sampleBatch (sampleArgs data).Args).cur
      = .ok [⟨⟨[3], ⟨1, 0⟩⟩, [7]⟩] := by
  simp [sampleArgs, sampleBatch, existingIterOf, NewIterator, SimpleIterator.Seek, scanSimple,
    emit, keyLess, MVCCKey.Less, MVCCKey.IsValue, Timestamp.zero, Timestamp.Less, Entry.pos,
    List.dropWhile, List.takeWhile]

theorem sample_verify_good :
    verifySSTable sampleEngine (existingIterOf sampleBatch (sampleArgs [3, 4, 5]).Args) [3, 4, 5]
      ⟨[2], Timestamp.zero⟩ ⟨[9], Timestamp.zero⟩ 5 = .ok ⟨3, 3, 3, 0, 0, 0⟩ := by
  simp [verifySSTable, sampleEngine, sampleArgs, sampleBatch, existingIterOf, NewIterator,
    SimpleIterator.Seek, SimpleIterator.Valid, SimpleIterator.UnsafeKey, ComputeStatsGo,
    MakeMultiIterator, scanMerged, emit, keyLess, MVCCKey.Less, MVCCKey.IsValue, Timestamp.zero,
    Timestamp.Less, Entry.pos, keys_MinKey, List.dropWhile, List.takeWhile]

theorem sample_verify_beyond :
    verifySSTable sampleEngine (existingIterOf sampleBatch (sampleArgs [3, 4, 9]).Args) [3, 4, 9]
      ⟨[2], Timestamp.zero⟩ ⟨[9], Timestamp.zero⟩ 5 =
      .error (.lastKeyNotInRange [9] [2] [9]) := by
  simp [verifySSTable, sampleEngine, sampleArgs, sampleBatch, existingIterOf, NewIterator,
    SimpleIterator.Seek, SimpleIterator.Valid, SimpleIterator.UnsafeKey, ComputeStatsGo,
    MakeMultiIterator, scanMerged, emit, keyLess, MVCCKey.Less, MVCCKey.IsValue, Timestamp.zero,
    Timestamp.Less, Entry.pos, keys_MinKey, List.dropWhile, List.takeWhile]

theorem sample_eval_good (ctx : Context) :
    (EvalAddSSTable sampleEngine ctx sampleBatch (sampleArgs [3, 4, 5])).stats
        = ⟨12, 22, 32, 0, 0, 0⟩ ∧
      (EvalAddSSTable sampleEngine ctx sampleBatch (sampleArgs [3, 4, 5])).ret
        = .ok ⟨[3, 4, 5], 12⟩ := by
  have h := EvalAddSSTable_success sampleEngine ctx sampleBatch (sampleArgs [3, 4, 5]) _ _
    (sample_existing_scan _) sample_verify_good
  refine ⟨h.1.trans ?_, h.2.trans ?_⟩
  · simp [sampleArgs, sampleEngine, MVCCStats.Subtract, MVCCStats.Add]
  · simp [sampleArgs, sampleEngine]

theorem sample_eval_beyond (ctx : Context) :
    (EvalAddSSTable sampleEngine ctx sampleBatch (sampleArgs [3, 4, 9])).stats
        = ⟨9, 19, 29, 0, 0, 0⟩ ∧
      (EvalAddSSTable sampleEngine ctx sampleBatch (sampleArgs [3, 4, 9])).ret
        = .error (.wrap .verifyingSSTableData (.lastKeyNotInRange [9] [2] [9])) := by
  have h := EvalAddSSTable_verify_error sampleEngine ctx sampleBatch (sampleArgs [3, 4, 9]) _ _
    (sample_existing_scan _) sample_verify_beyond
  refine ⟨h.1.trans ?_, h.2⟩
  simp [sampleArgs, sampleEngine, MVCCStats.Subtract]

/-! ## C1: the caller's statistics when the evaluation fails -/

/-- C1, as stated, fails: on the sample range holding one existing record, a
table whose last key is the end key makes `EvalAddSSTable` return an error, yet
the caller's statistics have already been reduced by the existing statistics
and differ from their value before the call. -/
theorem stats_changed_on_verify_error :
    (EvalAddSSTable sampleEngine ⟨false⟩ sampleBatch (sampleArgs [3, 4, 9])).ret
        = .error (.wrap .verifyingSSTableData (.lastKeyNotInRange [9] [2] [9])) ∧
      (EvalAddSSTable sampleEngine ⟨false⟩ sampleBatch (sampleArgs [3, 4, 9])).stats
        ≠ (sampleArgs [3, 4, 9]).Stats := by
  refine ⟨(sample_eval_beyond ⟨false⟩).2, ?_⟩
  rw [(sample_eval_beyond ⟨false⟩).1]
  simp [sampleArgs]

/-- C1, amended: when `EvalAddSSTable` returns an error, either the error comes
from the existing-statistics pass and the caller's statistics equal their value
before the call, or it comes from `verifySSTable` and the caller's statistics
equal their value before the call minus the existing statistics (the
subtraction has been applied, the addition of the merged statistics has
not). -/
theorem stats_after_error (eng : Engine) (ctx : Context) (batch : List Entry)
    (cArgs : CommandArgs) (err : EvalError)
    (h : (EvalAddSSTable eng ctx batch cArgs).ret = .error err) :
    (∃ cause, err = .wrap .computingExistingStats cause ∧
        (existingIterOf batch cArgs.Args).ComputeStats eng ⟨cArgs.Args.Key, Timestamp.zero⟩
          ⟨cArgs.Args.EndKey, Timestamp.zero⟩ cArgs.Header.Timestamp.WallTime = .error cause ∧
        (EvalAddSSTable eng ctx batch cArgs).stats = cArgs.Stats) ∨
    (∃ cause existingStats, err = .wrap .verifyingSSTableData cause ∧
        (existingIterOf batch cArgs.Args).ComputeStats eng ⟨cArgs.Args.Key, Timestamp.zero⟩
          ⟨cArgs.Args.EndKey, Timestamp.zero⟩ cArgs.Header.Timestamp.WallTime
          = .ok existingStats ∧
        verifySSTable eng (existingIterOf batch cArgs.Args) cArgs.Args.Data
          ⟨cArgs.Args.Key, Timestamp.zero⟩ ⟨cArgs.Args.EndKey, Timestamp.zero⟩
          cArgs.Header.Timestamp.WallTime = .error cause ∧
        (EvalAddSSTable eng ctx batch cArgs).stats = cArgs.Stats.Subtract existingStats) := by
  cases hs : scanSimple ⟨cArgs.Args.EndKey, Timestamp.zero⟩
      (existingIterOf batch cArgs.Args).cur with
  | error cause =>
    have h2 := EvalAddSSTable_existing_error eng ctx batch cArgs cause hs
    rw [h2.2] at h
    cases h
    exact Or.inl ⟨cause, rfl, by simp [SimpleIterator.ComputeStats, existingIterOf_seek, hs],
      h2.1⟩
  | ok kvs =>
    cases hv : verifySSTable eng (existingIterOf batch cArgs.Args) cArgs.Args.Data
        ⟨cArgs.Args.Key, Timestamp.zero⟩ ⟨cArgs.Args.EndKey, Timestamp.zero⟩
        cArgs.Header.Timestamp.WallTime with
    | error cause =>
      have h2 := EvalAddSSTable_verify_error eng ctx batch cArgs kvs cause hs hv
      rw [h2.2] at h
      cases h
      exact Or.inr ⟨cause, _, rfl,
        by simp [SimpleIterator.ComputeStats, existingIterOf_seek, hs], rfl, h2.1⟩
    | ok stats =>
      rw [(EvalAddSSTable_success eng ctx batch cArgs kvs stats hs hv).2] at h
      cases h

/-- Witness for `stats_after_error` on the sample input whose table reaches the
end key. -/
theorem stats_after_error_witness :
    (EvalAddSSTable sampleEngine ⟨false⟩ sampleBatch (sampleArgs [3, 4, 9])).ret
        = .error (.wrap .verifyingSSTableData (.lastKeyNotInRange [9] [2] [9])) ∧
    ((∃ cause, EvalError.wrap .verifyingSSTableData (.lastKeyNotInRange [9] [2] [9])
          = .wrap .computingExistingStats cause ∧
        (existingIterOf sampleBatch (sampleArgs [3, 4, 9]).Args).ComputeStats sampleEngine
          ⟨[2], Timestamp.zero⟩ ⟨[9], Timestamp.zero⟩ 5 = .error cause ∧
        (EvalAddSSTable sampleEngine ⟨false⟩ sampleBatch (sampleArgs [3, 4, 9])).stats
          = (sampleArgs [3, 4, 9]).Stats) ∨
    (∃ cause existingStats, EvalError.wrap .verifyingSSTableData (.lastKeyNotInRange [9] [2] [9])
          = .wrap .verifyingSSTableData cause ∧
        (existingIterOf sampleBatch (sampleArgs [3, 4, 9]).Args).ComputeStats sampleEngine
          ⟨[2], Timestamp.zero⟩ ⟨[9], Timestamp.zero⟩ 5 = .ok existingStats ∧
        verifySSTable sampleEngine (existingIterOf sampleBatch (sampleArgs [3, 4, 9]).Args)
          [3, 4, 9] ⟨[2], Timestamp.zero⟩ ⟨[9], Timestamp.zero⟩ 5 = .error cause ∧
        (EvalAddSSTable sampleEngine ⟨false⟩ sampleBatch (sampleArgs [3, 4, 9])).stats
          = (sampleArgs [3, 4, 9]).Stats.Subtract existingStats)) :=
  ⟨(sample_eval_beyond ⟨false⟩).2,
    stats_after_error sampleEngine ⟨false⟩ sampleBatch (sampleArgs [3, 4, 9]) _
      (sample_eval_beyond ⟨false⟩).2⟩

/-! ## C10: cancellation -/

/-- C10, as stated, fails: with the surrounding context already cancelled at
the start of the evaluation, `EvalAddSSTable` still returns a successful
result. -/
theorem cancelled_context_still_succeeds :
    (EvalAddSSTable sampleEngine ⟨true⟩ sampleBatch (sampleArgs [3, 4, 5])).ret
      = .ok ⟨[3, 4, 5], 12⟩ :=
  (sample_eval_good ⟨true⟩).2

/-- C10, amended: `EvalAddSSTable` does not observe cancellation; its outcome
(returned result or error, and the caller's statistics) is the same whether or
not the surrounding context is cancelled. -/
theorem outcome_independent_of_context (eng : Engine) (ctx ctx2 : Context)
    (batch : List Entry) (cArgs : CommandArgs) :
    EvalAddSSTable eng ctx batch cArgs = EvalAddSSTable eng ctx2 batch cArgs := rfl

/-! ## C9: contents of the result -/

/-- C9: on success the result's `Data` is exactly the request's table bytes and
its `CRC32` is the checksum function applied to those bytes; hence any other
successful evaluation on identical bytes returns the identical checksum. -/
theorem result_contents (eng : Engine) (ctx : Context) (batch : List Entry)
    (cArgs : CommandArgs) (r : Result)
    (h : (EvalAddSSTable eng ctx batch cArgs).ret = .ok r) :
    r.Data = cArgs.Args.Data ∧ r.CRC32 = eng.CRC32 cArgs.Args.Data ∧
      ∀ (ctx2 : Context) (batch2 : List Entry) (cArgs2 : CommandArgs) (r2 : Result),
        (EvalAddSSTable eng ctx2 batch2 cArgs2).ret = .ok r2 →
        cArgs2.Args.Data = cArgs.Args.Data → r2.CRC32 = r.CRC32 := by
  have key : ∀ (c : Context) (b : List Entry) (a : CommandArgs) (x : Result),
      (EvalAddSSTable eng c b a).ret = .ok x →
      x = { Data := a.Args.Data, CRC32 := eng.CRC32 a.Args.Data } := by
    intro c b a x hx
    obtain ⟨kvs, stats, hs, hv⟩ := EvalAddSSTable_ok_inv eng c b a x hx
    rw [(EvalAddSSTable_success eng c b a kvs stats hs hv).2] at hx
    cases hx
    rfl
  have h1 := key ctx batch cArgs r h
  subst h1
  refine ⟨rfl, rfl, ?_⟩
  intro ctx2 batch2 cArgs2 r2 h2 hd
  have := key ctx2 batch2 cArgs2 r2 h2
  subst this
  simp [hd]

/-- Witness for `result_contents` on the sample input. -/
theorem result_contents_witness :
    (EvalAddSSTable sampleEngine ⟨false⟩ sampleBatch (sampleArgs [3, 4, 5])).ret
        = .ok ⟨[3, 4, 5], 12⟩ ∧
      (⟨[3, 4, 5], 12⟩ : Result).Data = (sampleArgs [3, 4, 5]).Args.Data ∧
      (⟨[3, 4, 5], 12⟩ : Result).CRC32 = sampleEngine.CRC32 (sampleArgs [3, 4, 5]).Args.Data :=
  ⟨(sample_eval_good ⟨false⟩).2,
    (result_contents sampleEngine ⟨false⟩ sampleBatch (sampleArgs [3, 4, 5]) _
      (sample_eval_good ⟨false⟩).2).1,
    (result_contents sampleEngine ⟨false⟩ sampleBatch (sampleArgs [3, 4, 5]) _
      (sample_eval_good ⟨false⟩).2).2.1⟩

/-! ## C3: range soundness of `verifySSTable` -/

/-- In a sorted table that passes the first-key check no entry has a raw key
below the start key. -/
theorem firstOk_sorted_lower (start : Key) (T : List Entry)
    (hf : FirstOk ⟨start, Timestamp.zero⟩ T) (hsorted : Sorted T) :
    ∀ e ∈ T, keyLess e.pos.Key start = false := by
  intro e he
  rcases hf with rfl | ⟨kv, rest, rfl, hlt⟩
  · cases he
  · rw [mvccLess_bound] at hlt
    rcases List.mem_cons.1 he with rfl | he
    · exact hlt
    · have hlt2 : (Entry.record kv).pos.Less e.pos = true :=
        List.rel_of_pairwise_cons hsorted he
      exact keyLess_false_trans _ _ _ (mvccLess_key _ _ hlt2) hlt

/-- C3: for a table in strict stream order and a range `[start, endKey)`, if
`verifySSTable` returns without error then every entry of the table has a raw
key `k` with `start <= k < endKey` (start inclusive, end exclusive). -/
theorem verifySSTable_range_sound (eng : Engine) (existingIter : SimpleIterator)
    (data : List Nat) (start endKey : Key) (nowNanos : Int) (T : List Entry)
    (stats : MVCCStats)
    (hT : eng.NewMemSSTIterator data = .ok T) (hsorted : Sorted T)
    (h : verifySSTable eng existingIter data ⟨start, Timestamp.zero⟩ ⟨endKey, Timestamp.zero⟩
      nowNanos = .ok stats) :
    ∀ e ∈ T, keyLess e.pos.Key start = false ∧ keyLess e.pos.Key endKey = true := by
  obtain ⟨T2, hT2, hf, _, hend⟩ := verifySSTable_ok_inv _ _ _ _ _ _ _ h
  rw [hT] at hT2
  cases hT2
  intro e he
  refine ⟨firstOk_sorted_lower start T hf hsorted e he, ?_⟩
  have := hend e he
  rwa [mvccLess_bound] at this

/-- Witness for `verifySSTable_range_sound` on the sample table `[3, 4, 5]` and
range `[[2], [9])`. -/
theorem verifySSTable_range_sound_witness :
    verifySSTable sampleEngine (existingIterOf sampleBatch (sampleArgs [3, 4, 5]).Args) [3, 4, 5]
        ⟨[2], Timestamp.zero⟩ ⟨[9], Timestamp.zero⟩ 5 = .ok ⟨3, 3, 3, 0, 0, 0⟩ ∧
      ∀ e ∈ ([.record ⟨⟨[3], ⟨1, 0⟩⟩, [3]⟩, .record ⟨⟨[4], ⟨1, 0⟩⟩, [4]⟩,
          .record ⟨⟨[5], ⟨1, 0⟩⟩, [5]⟩] : List Entry),
        keyLess e.pos.Key [2] = false ∧ keyLess e.pos.Key [9] = true :=
  ⟨sample_verify_good,
    verifySSTable_range_sound sampleEngine _ [3, 4, 5] [2] [9] 5 _ _
      (by simp [sampleEngine]) (by unfold Sorted; decide) sample_verify_good⟩

/-! ## C5: lower-bound rejection -/

/-- C5: when the first record of the table has a raw key strictly below
`start`, `verifySSTable` fails with the lower-bound error, whatever the rest of
the table and the existing data are; a first record whose raw key equals
`start` is not rejected by this check, at any timestamp. -/
theorem lower_bound_rejection (eng : Engine) (existingIter : SimpleIterator)
    (data : List Nat) (start endKey : Key) (nowNanos : Int) (kv : MVCCKeyValue)
    (rest : List Entry)
    (hT : eng.NewMemSSTIterator data = .ok (.record kv :: rest)) :
    (keyLess kv.Key.Key start = true →
      verifySSTable eng existingIter data ⟨start, Timestamp.zero⟩ ⟨endKey, Timestamp.zero⟩
        nowNanos = .error (.firstKeyNotInRange kv.Key.Key start endKey)) ∧
    (kv.Key.Key = start → ∀ k s e,
      verifySSTable eng existingIter data ⟨start, Timestamp.zero⟩ ⟨endKey, Timestamp.zero⟩
        nowNanos ≠ .error (.firstKeyNotInRange k s e)) := by
  refine ⟨?_, ?_⟩
  · intro hlt
    have hlt2 : kv.Key.Less ⟨start, Timestamp.zero⟩ = true := by rwa [mvccLess_bound]
    exact verifySSTable_first_below eng existingIter data _ ⟨endKey, Timestamp.zero⟩ nowNanos
      kv rest hT hlt2
  · intro heq k s e
    have hlt2 : kv.Key.Less ⟨start, Timestamp.zero⟩ = false := by
      rw [mvccLess_bound, heq]; exact keyLess_irrefl _
    have hf : FirstOk ⟨start, Timestamp.zero⟩ (.record kv :: rest) :=
      Or.inr ⟨kv, rest, rfl, hlt2⟩
    cases hs : scanMerged ⟨endKey, Timestamp.zero⟩
        (existingIter.entries.dropWhile (fun x => x.pos.Less ⟨start, Timestamp.zero⟩))
        (.record kv :: rest) with
    | error err =>
      rw [verifySSTable_scan_error _ _ _ _ _ _ _ _ hT hf hs]
      obtain ⟨p, hp, _⟩ := scanMerged_error _ _ _ _ hs
      rw [hp]
      simp
    | ok kvs =>
      rw [verifySSTable_tail _ _ _ _ _ _ _ _ hT hf hs]
      cases hd : List.dropWhile (fun x => x.pos.Less ⟨endKey, Timestamp.zero⟩)
          (Entry.record kv :: rest) with
      | nil => simp
      | cons y ys => cases y <;> simp

/-- Witness for `lower_bound_rejection`: on the range `[[4], [9])` the sample
table `[3, 4, 5]` starts below the range and is rejected with the lower-bound
error, while the table `[4, 5]`, which starts exactly at the start key, is not
rejected by the lower-bound check. -/
theorem lower_bound_rejection_witness :
    (keyLess [3] [4] = true ∧
      verifySSTable sampleEngine (existingIterOf sampleBatch (sampleArgs [3, 4, 5]).Args)
        [3, 4, 5] ⟨[4], Timestamp.zero⟩ ⟨[9], Timestamp.zero⟩ 5
        = .error (.firstKeyNotInRange [3] [4] [9])) ∧
    (∀ k s e,
      verifySSTable sampleEngine (existingIterOf sampleBatch (sampleArgs [4, 5]).Args)
        [4, 5] ⟨[4], Timestamp.zero⟩ ⟨[9], Timestamp.zero⟩ 5
        ≠ .error (.firstKeyNotInRange k s e)) :=
  ⟨⟨by decide,
    (lower_bound_rejection sampleEngine _ [3, 4, 5] [4] [9] 5 ⟨⟨[3], ⟨1, 0⟩⟩, [3]⟩
      [.record ⟨⟨[4], ⟨1, 0⟩⟩, [4]⟩, .record ⟨⟨[5], ⟨1, 0⟩⟩, [5]⟩]
      (by simp [sampleEngine])).1 (by decide)⟩,
    (lower_bound_rejection sampleEngine _ [4, 5] [4] [9] 5 ⟨⟨[4], ⟨1, 0⟩⟩, [4]⟩
      [.record ⟨⟨[5], ⟨1, 0⟩⟩, [5]⟩] (by simp [sampleEngine])).2 rfl⟩

/-! ## C4: upper-bound rejection -/

theorem scanMerged_incoming_malformed (endKey : MVCCKey) (a : List Entry) (p : MVCCKey)
    (rest : List Entry) :
    ∃ err, scanMerged endKey a (.malformed p :: rest) = .error err := by
  cases a with
  | nil => exact ⟨.decode p, by simp [scanMerged]⟩
  | cons x xs =>
    cases x with
    | malformed q => exact ⟨.decode q, by simp [scanMerged]⟩
    | record kv => exact ⟨.decode p, by simp [scanMerged]⟩

/-- C4: when the last entry of the table has a raw key at or after the end key
(a key exactly equal to the end key included, at any timestamp), the first key
is not below the start key and the merged statistics pass raises no error,
`verifySSTable` fails with the upper-bound error, reported for a key that is
not below the end key, and `EvalAddSSTable` returns an error. -/
theorem upper_bound_rejection (eng : Engine) (ctx : Context) (batch : List Entry)
    (cArgs : CommandArgs) (T : List Entry) (first last : Entry) (mergedStats : MVCCStats)
    (hT : eng.NewMemSSTIterator cArgs.Args.Data = .ok T)
    (hfirst : T.head? = some first) (hlast : T.getLast? = some last)
    (hlo : keyLess first.pos.Key cArgs.Args.Key = false)
    (hhi : keyLess last.pos.Key cArgs.Args.EndKey = false)
    (hpass : ComputeStatsGo eng
      (MakeMultiIterator (existingIterOf batch cArgs.Args) { entries := T, cur := T })
      ⟨cArgs.Args.Key, Timestamp.zero⟩ ⟨cArgs.Args.EndKey, Timestamp.zero⟩
      cArgs.Header.Timestamp.WallTime = .ok mergedStats) :
    (∃ k, keyLess k cArgs.Args.EndKey = false ∧
      verifySSTable eng (existingIterOf batch cArgs.Args) cArgs.Args.Data
        ⟨cArgs.Args.Key, Timestamp.zero⟩ ⟨cArgs.Args.EndKey, Timestamp.zero⟩
        cArgs.Header.Timestamp.WallTime
        = .error (.lastKeyNotInRange k cArgs.Args.Key cArgs.Args.EndKey)) ∧
    ∃ err, (EvalAddSSTable eng ctx batch cArgs).ret = .error err := by
  -- the table starts with `first`, which is not below the start key
  obtain ⟨rest, rfl⟩ : ∃ rest, T = first :: rest := by
    cases T with
    | nil => simp at hfirst
    | cons x xs => simp at hfirst; exact ⟨xs, by rw [hfirst]⟩
  have hlo2 : first.pos.Less ⟨cArgs.Args.Key, Timestamp.zero⟩ = false := by
    rwa [mvccLess_bound]
  have hseek : (first :: rest).dropWhile (fun x => x.pos.Less ⟨cArgs.Args.Key, Timestamp.zero⟩)
      = first :: rest := dropWhile_head_false _ _ _ hlo2
  -- the merged pass ran over the existing cursor and the whole table
  obtain ⟨kvs, hs⟩ : ∃ kvs, scanMerged ⟨cArgs.Args.EndKey, Timestamp.zero⟩
      ((existingIterOf batch cArgs.Args).entries.dropWhile
        (fun x => x.pos.Less ⟨cArgs.Args.Key, Timestamp.zero⟩)) (first :: rest) = .ok kvs := by
    simp only [ComputeStatsGo, MakeMultiIterator, SimpleIterator.Seek, hseek] at hpass
    cases hs : scanMerged ⟨cArgs.Args.EndKey, Timestamp.zero⟩
      ((existingIterOf batch cArgs.Args).entries.dropWhile
        (fun x => x.pos.Less ⟨cArgs.Args.Key, Timestamp.zero⟩)) (first :: rest) with
    | error err => simp [hs] at hpass
    | ok kvs => exact ⟨kvs, rfl⟩
  have hf : FirstOk ⟨cArgs.Args.Key, Timestamp.zero⟩ (first :: rest) := by
    cases first with
    | malformed p =>
      obtain ⟨err, he⟩ := scanMerged_incoming_malformed ⟨cArgs.Args.EndKey, Timestamp.zero⟩
        ((existingIterOf batch cArgs.Args).entries.dropWhile
          (fun x => x.pos.Less ⟨cArgs.Args.Key, Timestamp.zero⟩)) p rest
      rw [he] at hs
      cases hs
    | record kv => exact Or.inr ⟨kv, rest, rfl, hlo2⟩
  -- seeking to the end key finds an entry, and the merged pass has decoded it
  have hmem : last ∈ first :: rest := List.mem_of_getLast?_eq_some hlast
  have hne : (first :: rest).dropWhile (fun x => x.pos.Less ⟨cArgs.Args.EndKey, Timestamp.zero⟩)
      ≠ [] := by
    intro hnil
    have := List.dropWhile_eq_nil_iff.1 hnil last hmem
    rw [mvccLess_bound, hhi] at this
    cases this
  have hv : ∃ k, keyLess k cArgs.Args.EndKey = false ∧
      verifySSTable eng (existingIterOf batch cArgs.Args) cArgs.Args.Data
        ⟨cArgs.Args.Key, Timestamp.zero⟩ ⟨cArgs.Args.EndKey, Timestamp.zero⟩
        cArgs.Header.Timestamp.WallTime
        = .error (.lastKeyNotInRange k cArgs.Args.Key cArgs.Args.EndKey) := by
    rw [verifySSTable_tail _ _ _ _ _ _ _ _ hT hf hs]
    cases hd : (first :: rest).dropWhile
        (fun x => x.pos.Less ⟨cArgs.Args.EndKey, Timestamp.zero⟩) with
    | nil => exact absurd hd hne
    | cons y ys =>
      cases y with
      | malformed p => exact absurd hd (scanMerged_ok_landing _ _ _ _ hs p ys)
      | record kv =>
        refine ⟨kv.Key.Key, ?_, rfl⟩
        have := List.head_dropWhile_not
          (fun x => x.pos.Less ⟨cArgs.Args.EndKey, Timestamp.zero⟩) (first :: rest)
        simp only [hd] at this
        have h2 := this (by simp)
        simpa [pos_record, mvccLess_bound] using h2
  refine ⟨hv, ?_⟩
  obtain ⟨k, _, hk⟩ := hv
  cases hex : scanSimple ⟨cArgs.Args.EndKey, Timestamp.zero⟩
      (existingIterOf batch cArgs.Args).cur with
  | error err => exact ⟨_, (EvalAddSSTable_existing_error eng ctx batch cArgs err hex).2⟩
  | ok ekvs => exact ⟨_, (EvalAddSSTable_verify_error eng ctx batch cArgs ekvs _ hex hk).2⟩

/-- Witness for `upper_bound_rejection`: the sample table `[3, 4, 9]` ends
exactly at the end key `[9]` of the sample range. -/
theorem upper_bound_rejection_witness :
    keyLess [9] (sampleArgs [3, 4, 9]).Args.EndKey = false ∧
    ((∃ k, keyLess k (sampleArgs [3, 4, 9]).Args.EndKey = false ∧
      verifySSTable sampleEngine (existingIterOf sampleBatch (sampleArgs [3, 4, 9]).Args)
        (sampleArgs [3, 4, 9]).Args.Data
        ⟨(sampleArgs [3, 4, 9]).Args.Key, Timestamp.zero⟩
        ⟨(sampleArgs [3, 4, 9]).Args.EndKey, Timestamp.zero⟩
        (sampleArgs [3, 4, 9]).Header.Timestamp.WallTime
        = .error (.lastKeyNotInRange k (sampleArgs [3, 4, 9]).Args.Key
            (sampleArgs [3, 4, 9]).Args.EndKey)) ∧
    ∃ err, (EvalAddSSTable sampleEngine ⟨false⟩ sampleBatch (sampleArgs [3, 4, 9])).ret
      = .error err) :=
  ⟨by decide,
    upper_bound_rejection sampleEngine ⟨false⟩ sampleBatch (sampleArgs [3, 4, 9])
      [.record ⟨⟨[3], ⟨1, 0⟩⟩, [3]⟩, .record ⟨⟨[4], ⟨1, 0⟩⟩, [4]⟩, .record ⟨⟨[9], ⟨1, 0⟩⟩, [9]⟩]
      (.record ⟨⟨[3], ⟨1, 0⟩⟩, [3]⟩) (.record ⟨⟨[9], ⟨1, 0⟩⟩, [9]⟩) ⟨2, 2, 2, 0, 0, 0⟩
      (by simp [sampleEngine, sampleArgs]) rfl rfl (by decide) (by decide)
      (by simp [sampleEngine, sampleArgs, sampleBatch, existingIterOf, NewIterator,
        SimpleIterator.Seek, ComputeStatsGo, MakeMultiIterator, scanMerged, emit, keyLess,
        MVCCKey.Less, MVCCKey.IsValue, Timestamp.zero, Timestamp.Less, Entry.pos,
        List.dropWhile, List.takeWhile])⟩

/-! ## C8: malformed records -/

/-- C8: if any entry of the incoming table fails to decode, `EvalAddSSTable`
returns an error and no result, whatever the existing data; an error of the
existing-statistics pass is a decoding error of the existing stream and makes
the evaluation fail with that error; and, once the first-key check has passed,
a decoding error raised during the merged pass makes the evaluation fail with
that error. -/
theorem malformed_record_propagation (eng : Engine) (ctx : Context) (batch : List Entry)
    (cArgs : CommandArgs) :
    (∀ T p, eng.NewMemSSTIterator cArgs.Args.Data = .ok T → Entry.malformed p ∈ T →
      ∃ err, (EvalAddSSTable eng ctx batch cArgs).ret = .error err) ∧
    (∀ cause,
      (existingIterOf batch cArgs.Args).ComputeStats eng ⟨cArgs.Args.Key, Timestamp.zero⟩
        ⟨cArgs.Args.EndKey, Timestamp.zero⟩ cArgs.Header.Timestamp.WallTime = .error cause →
      (EvalAddSSTable eng ctx batch cArgs).ret = .error (.wrap .computingExistingStats cause) ∧
        ∃ p, cause = .decode p ∧ Entry.malformed p ∈ batch) ∧
    (∀ T existingStats cause, eng.NewMemSSTIterator cArgs.Args.Data = .ok T →
      FirstOk ⟨cArgs.Args.Key, Timestamp.zero⟩ T →
      (existingIterOf batch cArgs.Args).ComputeStats eng ⟨cArgs.Args.Key, Timestamp.zero⟩
        ⟨cArgs.Args.EndKey, Timestamp.zero⟩ cArgs.Header.Timestamp.WallTime
        = .ok existingStats →
      ComputeStatsGo eng (MakeMultiIterator (existingIterOf batch cArgs.Args)
          { entries := T, cur := T })
        ⟨cArgs.Args.Key, Timestamp.zero⟩ ⟨cArgs.Args.EndKey, Timestamp.zero⟩
        cArgs.Header.Timestamp.WallTime = .error cause →
      (EvalAddSSTable eng ctx batch cArgs).ret = .error (.wrap .verifyingSSTableData cause) ∧
        ∃ p, cause = .decode p ∧ (Entry.malformed p ∈ batch ∨ Entry.malformed p ∈ T)) := by
  have hsub : ∀ x, x ∈ (existingIterOf batch cArgs.Args).cur → x ∈ batch := by
    intro x hx
    rw [existingIterOf_cur] at hx
    exact (List.takeWhile_sublist _).subset ((List.dropWhile_sublist _).subset hx)
  refine ⟨?_, ?_, ?_⟩
  · intro T p hT hp
    cases hret : (EvalAddSSTable eng ctx batch cArgs).ret with
    | error err => exact ⟨err, rfl⟩
    | ok r =>
      exfalso
      obtain ⟨kvs, stats, _, hv⟩ := EvalAddSSTable_ok_inv eng ctx batch cArgs r hret
      obtain ⟨T2, hT2, _, ⟨mkvs, hm, _⟩, hend⟩ := verifySSTable_ok_inv _ _ _ _ _ _ _ hv
      rw [hT] at hT2
      cases hT2
      have hrec := (scanMerged_ok _ _ _ _ hm (existingIterOf_below batch cArgs.Args) hend).2.1
      simpa [Entry.isMalformed] using hrec _ hp
  · intro cause hc
    cases hs : scanSimple ⟨cArgs.Args.EndKey, Timestamp.zero⟩
        (existingIterOf batch cArgs.Args).cur with
    | ok kvs => simp [SimpleIterator.ComputeStats, existingIterOf_seek, hs] at hc
    | error err =>
      simp [SimpleIterator.ComputeStats, existingIterOf_seek, hs] at hc
      subst hc
      obtain ⟨p, hp, he⟩ := scanSimple_error _ _ _ hs
      exact ⟨(EvalAddSSTable_existing_error eng ctx batch cArgs err hs).2, p, he, hsub _ hp⟩
  · intro T existingStats cause hT hf hex hc
    cases hs : scanSimple ⟨cArgs.Args.EndKey, Timestamp.zero⟩
        (existingIterOf batch cArgs.Args).cur with
    | error err => simp [SimpleIterator.ComputeStats, existingIterOf_seek, hs] at hex
    | ok kvs =>
      simp only [ComputeStatsGo, MakeMultiIterator, SimpleIterator.Seek, hf.seek] at hc
      cases hm : scanMerged ⟨cArgs.Args.EndKey, Timestamp.zero⟩
          ((existingIterOf batch cArgs.Args).entries.dropWhile
            (fun x => x.pos.Less ⟨cArgs.Args.Key, Timestamp.zero⟩)) T with
      | ok mkvs => simp [hm] at hc
      | error err =>
        simp [hm] at hc
        subst hc
        have hv := verifySSTable_scan_error eng (existingIterOf batch cArgs.Args)
          cArgs.Args.Data _ _ cArgs.Header.Timestamp.WallTime T err hT hf hm
        obtain ⟨p, hp, hmem⟩ := scanMerged_error _ _ _ _ hm
        exact ⟨(EvalAddSSTable_verify_error eng ctx batch cArgs kvs err hs hv).2, p, hp,
          hmem.imp (fun h => hsub _ h) id⟩

/-- Witness for `malformed_record_propagation`: a table with a malformed entry
in the middle, existing data with a malformed entry, and a table whose
malformed entry is met by the merged pass. -/
theorem malformed_record_propagation_witness :
    (∃ err, (EvalAddSSTable sampleEngine ⟨false⟩ sampleBatch (sampleArgs [3, 250, 5])).ret
      = .error err) ∧
    ((EvalAddSSTable sampleEngine ⟨false⟩ sampleBadBatch (sampleArgs [3, 4, 5])).ret
        = .error (.wrap .computingExistingStats (.decode ⟨[3], ⟨1, 0⟩⟩)) ∧
      ∃ p, EvalError.decode ⟨[3], ⟨1, 0⟩⟩ = .decode p ∧ Entry.malformed p ∈ sampleBadBatch) ∧
    ((EvalAddSSTable sampleEngine ⟨false⟩ sampleBatch (sampleArgs [3, 250])).ret
        = .error (.wrap .verifyingSSTableData (.decode ⟨[250], ⟨1, 0⟩⟩)) ∧
      ∃ p, EvalError.decode ⟨[250], ⟨1, 0⟩⟩ = .decode p ∧
        (Entry.malformed p ∈ sampleBatch ∨
          Entry.malformed p ∈ ([.record ⟨⟨[3], ⟨1, 0⟩⟩, [3]⟩, .malformed ⟨[250], ⟨1, 0⟩⟩] :
            List Entry))) :=
  ⟨(malformed_record_propagation sampleEngine ⟨false⟩ sampleBatch (sampleArgs [3, 250, 5])).1
      [.record ⟨⟨[3], ⟨1, 0⟩⟩, [3]⟩, .malformed ⟨[250], ⟨1, 0⟩⟩, .record ⟨⟨[5], ⟨1, 0⟩⟩, [5]⟩]
      ⟨[250], ⟨1, 0⟩⟩ (by simp [sampleEngine, sampleArgs]) (by simp),
    (malformed_record_propagation sampleEngine ⟨false⟩ sampleBadBatch (sampleArgs [3, 4, 5])).2.1
      (.decode ⟨[3], ⟨1, 0⟩⟩)
      (by simp [sampleArgs, sampleBadBatch, existingIterOf, NewIterator, SimpleIterator.Seek,
        SimpleIterator.ComputeStats, scanSimple, keyLess, MVCCKey.Less, MVCCKey.IsValue,
        Timestamp.zero, Timestamp.Less, Entry.pos, List.dropWhile, List.takeWhile]),
    (malformed_record_propagation sampleEngine ⟨false⟩ sampleBatch (sampleArgs [3, 250])).2.2
      [.record ⟨⟨[3], ⟨1, 0⟩⟩, [3]⟩, .malformed ⟨[250], ⟨1, 0⟩⟩] ⟨1, 1, 1, 0, 0, 0⟩
      (.decode ⟨[250], ⟨1, 0⟩⟩) (by simp [sampleEngine, sampleArgs])
      (Or.inr ⟨_, _, rfl, by decide⟩)
      (by simp [sampleEngine, sampleArgs, sampleBatch, existingIterOf, NewIterator,
        SimpleIterator.Seek, SimpleIterator.ComputeStats, scanSimple, emit, keyLess,
        MVCCKey.Less, MVCCKey.IsValue, Timestamp.zero, Timestamp.Less, Entry.pos,
        List.dropWhile, List.takeWhile])
      (by simp [sampleEngine, sampleArgs, sampleBatch, existingIterOf, NewIterator,
        SimpleIterator.Seek, ComputeStatsGo, MakeMultiIterator, scanMerged, emit, keyLess,
        MVCCKey.Less, MVCCKey.IsValue, Timestamp.zero, Timestamp.Less, Entry.pos,
        List.dropWhile, List.takeWhile])⟩

/-! ## Sorted streams -/

theorem Sorted.tail {x : Entry} {xs : List Entry} (h : Sorted (x :: xs)) : Sorted xs :=
  (List.pairwise_cons.1 h).2

theorem Sorted.head_lt {x : Entry} {xs : List Entry} (h : Sorted (x :: xs)) :
    ∀ y ∈ xs, x.pos.Less y.pos = true :=
  (List.pairwise_cons.1 h).1

theorem Sorted.filter {xs : List Entry} (h : Sorted xs) (p : Entry → Bool) :
    Sorted (xs.filter p) :=
  List.Pairwise.filter p h

/-- In a sorted stream an entry is determined by its position. -/
theorem Sorted.pos_inj {xs : List Entry} (h : Sorted xs) {x y : Entry} (hx : x ∈ xs)
    (hy : y ∈ xs) (hp : x.pos = y.pos) : x = y := by
  induction xs with
  | nil => cases hx
  | cons z zs ih =>
    rcases List.mem_cons.1 hx with ex | hx2
    · rcases List.mem_cons.1 hy with ey | hy2
      · rw [ex, ey]
      · have := h.head_lt y hy2
        rw [← ex, hp, mvccLess_irrefl] at this
        cases this
    · rcases List.mem_cons.1 hy with ey | hy2
      · have := h.head_lt x hx2
        rw [← ey, ← hp, mvccLess_irrefl] at this
        cases this
      · exact ih h.tail hx2 hy2

/-- Two sorted streams with the same entries are the same stream. -/
theorem Sorted.ext {l₁ l₂ : List Entry} (h₁ : Sorted l₁) (h₂ : Sorted l₂)
    (h : ∀ x, x ∈ l₁ ↔ x ∈ l₂) : l₁ = l₂ := by
  induction l₁ generalizing l₂ with
  | nil =>
    cases l₂ with
    | nil => rfl
    | cons y ys => exact absurd ((h y).2 (List.mem_cons_self _ _)) (by simp)
  | cons x xs ih =>
    cases l₂ with
    | nil => exact absurd ((h x).1 (List.mem_cons_self _ _)) (by simp)
    | cons y ys =>
      have hxy : x = y := by
        rcases List.mem_cons.1 ((h x).1 (List.mem_cons_self _ _)) with e | hx
        · exact e
        · rcases List.mem_cons.1 ((h y).2 (List.mem_cons_self _ _)) with e | hy
          · exact e.symm
          · have a1 := h₂.head_lt x hx
            have a2 := h₁.head_lt y hy
            rw [mvccLess_asymm _ _ a1] at a2
            cases a2
      subst hxy
      have hnx : ∀ z ∈ xs, z ≠ x := by
        intro z hz e
        have := h₁.head_lt z hz
        rw [e, mvccLess_irrefl] at this
        cases this
      have hny : ∀ z ∈ ys, z ≠ x := by
        intro z hz e
        have := h₂.head_lt z hz
        rw [e, mvccLess_irrefl] at this
        cases this
      rw [ih h₁.tail h₂.tail]
      intro z
      constructor
      · intro hz
        rcases List.mem_cons.1 ((h z).1 (List.mem_cons_of_mem _ hz)) with e | hz2
        · exact absurd e (hnx z hz)
        · exact hz2
      · intro hz
        rcases List.mem_cons.1 ((h z).2 (List.mem_cons_of_mem _ hz)) with e | hz2
        · exact absurd e (hny z hz)
        · exact hz2

theorem sorted_takeWhile_eq_filter (p : Entry → Bool) (xs : List Entry) (h : Sorted xs)
    (hp : ∀ a b, a.pos.Less b.pos = true → p b = true → p a = true) :
    xs.takeWhile p = xs.filter p := by
  induction xs with
  | nil => rfl
  | cons x xs ih =>
    cases hx : p x with
    | true => simp [List.takeWhile, List.filter, hx, ih h.tail]
    | false =>
      have : xs.filter p = [] := by
        rw [List.filter_eq_nil_iff]
        intro y hy hpy
        rw [hp x y (h.head_lt y hy) hpy] at hx
        cases hx
      simp [List.takeWhile, List.filter, hx, this]

theorem sorted_dropWhile_eq_filter (p : Entry → Bool) (xs : List Entry) (h : Sorted xs)
    (hp : ∀ a b, a.pos.Less b.pos = true → p a = false → p b = false) :
    xs.dropWhile p = xs.filter (fun x => !p x) := by
  induction xs with
  | nil => rfl
  | cons x xs ih =>
    cases hx : p x with
    | true => simp [List.dropWhile, List.filter, hx, ih h.tail]
    | false =>
      have : xs.filter (fun x => !p x) = xs := by
        rw [List.filter_eq_self]
        intro y hy
        simp [hp x y (h.head_lt y hy) hx]
      simp [List.dropWhile, List.filter, hx, this]

/-- On sorted existing data the cursor built by `EvalAddSSTable` shows exactly
the existing entries whose raw key lies in the request range. -/
theorem existingIterOf_cur_sorted (batch : List Entry) (args : AddSSTableRequest)
    (h : Sorted batch) :
    (existingIterOf batch args).cur = restrict args.Key args.EndKey batch := by
  rw [existingIterOf_cur]
  rw [sorted_takeWhile_eq_filter _ batch h]
  · rw [sorted_dropWhile_eq_filter _ _ (h.filter _)]
    · rw [List.filter_filter]
      unfold restrict inRange
      congr 1
      funext x
      rw [mvccLess_bound]
    · intro a b hab ha
      rw [mvccLess_bound] at ha ⊢
      exact keyLess_false_trans _ _ _ (mvccLess_key _ _ hab) ha
  · intro a b hab hb
    exact keyLess_of_le_of_lt _ _ _ (mvccLess_key _ _ hab) hb

/-! ## The merge of two sorted streams -/

theorem mvccLess_ne (a b : MVCCKey) (h : a.Less b = true) : a ≠ b := by
  intro e
  rw [e, mvccLess_irrefl] at h
  cases h

theorem mergeStreams_cons_lt (a b : Entry) (as bs : List Entry)
    (h : b.pos.Less a.pos = true) :
    mergeStreams (a :: as) (b :: bs) = b :: mergeStreams (a :: as) bs := by
  rw [mergeStreams, if_pos h]

theorem mergeStreams_cons_gt (a b : Entry) (as bs : List Entry)
    (h1 : ¬ b.pos.Less a.pos = true) (h2 : a.pos.Less b.pos = true) :
    mergeStreams (a :: as) (b :: bs) = a :: mergeStreams as (b :: bs) := by
  rw [mergeStreams, if_neg h1, if_pos h2]

theorem mergeStreams_cons_tie (a b : Entry) (as bs : List Entry)
    (h1 : ¬ b.pos.Less a.pos = true) (h2 : ¬ a.pos.Less b.pos = true) :
    mergeStreams (a :: as) (b :: bs) = b :: mergeStreams as bs := by
  rw [mergeStreams, if_neg h1, if_neg h2]

/-- The entries of the merge: every entry of the incoming stream, and the
entries of the existing stream whose position the incoming stream does not
hold. -/
theorem mem_mergeStreams (a b : List Entry) (ha : Sorted a) (hb : Sorted b) (x : Entry) :
    x ∈ mergeStreams a b ↔ x ∈ b ∨ (x ∈ a ∧ ∀ y ∈ b, y.pos ≠ x.pos) := by
  induction a, b using mergeStreams.induct with
  | case1 bs => simp [mergeStreams]
  | case2 a as => simp [mergeStreams]
  | case3 a as b bs hlt ih =>
    rw [mergeStreams_cons_lt _ _ _ _ hlt, List.mem_cons, ih ha hb.tail]
    constructor
    · rintro (rfl | h | ⟨h1, h2⟩)
      · exact Or.inl (List.mem_cons_self _ _)
      · exact Or.inl (List.mem_cons_of_mem _ h)
      · refine Or.inr ⟨h1, ?_⟩
        intro y hy
        rcases List.mem_cons.1 hy with rfl | hy
        · rcases List.mem_cons.1 h1 with rfl | h1
          · exact mvccLess_ne _ _ hlt
          · exact mvccLess_ne _ _ (mvccLess_trans _ _ _ hlt (ha.head_lt x h1))
        · exact h2 y hy
    · rintro (h | ⟨h1, h2⟩)
      · rcases List.mem_cons.1 h with rfl | h
        · exact Or.inl rfl
        · exact Or.inr (Or.inl h)
      · exact Or.inr (Or.inr ⟨h1, fun y hy => h2 y (List.mem_cons_of_mem _ hy)⟩)
  | case4 a as b bs hnlt hlt ih =>
    rw [mergeStreams_cons_gt _ _ _ _ hnlt hlt, List.mem_cons, ih ha.tail hb]
    have hab : ∀ y ∈ b :: bs, y.pos ≠ a.pos := by
      intro y hy
      rcases List.mem_cons.1 hy with rfl | hy
      · exact (mvccLess_ne _ _ hlt).symm
      · exact (mvccLess_ne _ _ (mvccLess_trans _ _ _ hlt (hb.head_lt y hy))).symm
    constructor
    · rintro (rfl | h | ⟨h1, h2⟩)
      · exact Or.inr ⟨List.mem_cons_self _ _, hab⟩
      · exact Or.inl h
      · exact Or.inr ⟨List.mem_cons_of_mem _ h1, h2⟩
    · rintro (h | ⟨h1, h2⟩)
      · exact Or.inr (Or.inl h)
      · rcases List.mem_cons.1 h1 with rfl | h1
        · exact Or.inl rfl
        · exact Or.inr (Or.inr ⟨h1, h2⟩)
  | case5 a as b bs hnlt hngt ih =>
    rw [mergeStreams_cons_tie _ _ _ _ hnlt hngt, List.mem_cons, ih ha.tail hb.tail]
    have hpos : a.pos = b.pos :=
      mvccLess_total _ _ (by simpa using hngt) (by simpa using hnlt)
    constructor
    · rintro (rfl | h | ⟨h1, h2⟩)
      · exact Or.inl (List.mem_cons_self _ _)
      · exact Or.inl (List.mem_cons_of_mem _ h)
      · refine Or.inr ⟨List.mem_cons_of_mem _ h1, ?_⟩
        intro y hy
        rcases List.mem_cons.1 hy with rfl | hy
        · rw [← hpos]
          exact mvccLess_ne _ _ (ha.head_lt x h1)
        · exact h2 y hy
    · rintro (h | ⟨h1, h2⟩)
      · rcases List.mem_cons.1 h with rfl | h
        · exact Or.inl rfl
        · exact Or.inr (Or.inl h)
      · rcases List.mem_cons.1 h1 with rfl | h1
        · exact absurd hpos.symm (h2 b (List.mem_cons_self _ _))
        · exact Or.inr (Or.inr ⟨h1, fun y hy => h2 y (List.mem_cons_of_mem _ hy)⟩)

/-- The merge of two sorted streams is sorted. -/
theorem sorted_mergeStreams (a b : List Entry) (ha : Sorted a) (hb : Sorted b) :
    Sorted (mergeStreams a b) := by
  induction a, b using mergeStreams.induct with
  | case1 bs => simpa [mergeStreams] using hb
  | case2 a as => simpa [mergeStreams] using ha
  | case3 a as b bs hlt ih =>
    rw [mergeStreams_cons_lt _ _ _ _ hlt]
    refine List.pairwise_cons.2 ⟨?_, ih ha hb.tail⟩
    intro z hz
    rcases (mem_mergeStreams _ _ ha hb.tail z).1 hz with h | ⟨h, _⟩
    · exact hb.head_lt z h
    · rcases List.mem_cons.1 h with rfl | h
      · exact hlt
      · exact mvccLess_trans _ _ _ hlt (ha.head_lt z h)
  | case4 a as b bs hnlt hlt ih =>
    rw [mergeStreams_cons_gt _ _ _ _ hnlt hlt]
    refine List.pairwise_cons.2 ⟨?_, ih ha.tail hb⟩
    intro z hz
    rcases (mem_mergeStreams _ _ ha.tail hb z).1 hz with h | ⟨h, _⟩
    · rcases List.mem_cons.1 h with rfl | h
      · exact hlt
      · exact mvccLess_trans _ _ _ hlt (hb.head_lt z h)
    · exact ha.head_lt z h
  | case5 a as b bs hnlt hngt ih =>
    rw [mergeStreams_cons_tie _ _ _ _ hnlt hngt]
    have hpos : a.pos = b.pos :=
      mvccLess_total _ _ (by simpa using hngt) (by simpa using hnlt)
    refine List.pairwise_cons.2 ⟨?_, ih ha.tail hb.tail⟩
    intro z hz
    rcases (mem_mergeStreams _ _ ha.tail hb.tail z).1 hz with h | ⟨h, _⟩
    · exact hb.head_lt z h
    · rw [← hpos]
      exact ha.head_lt z h

/-- Ingesting the same stream a second time changes nothing. -/
theorem mergeStreams_idem (a b : List Entry) (ha : Sorted a) (hb : Sorted b) :
    mergeStreams (mergeStreams a b) b = mergeStreams a b := by
  have hm := sorted_mergeStreams a b ha hb
  apply Sorted.ext (sorted_mergeStreams _ _ hm hb) hm
  intro x
  rw [mem_mergeStreams _ _ hm hb, mem_mergeStreams _ _ ha hb]
  constructor
  · rintro (h | ⟨h, _⟩)
    · exact Or.inl h
    · exact h
  · rintro (h | ⟨h1, h2⟩)
    · exact Or.inl h
    · exact Or.inr ⟨Or.inr ⟨h1, h2⟩, h2⟩

theorem mem_restrict (s e : Key) (xs : List Entry) (x : Entry) :
    x ∈ restrict s e xs ↔ x ∈ xs ∧ inRange s e x.pos.Key = true := by
  simp [restrict]

/-- Restricting to the range commutes with merging. -/
theorem restrict_mergeStreams (s e : Key) (a b : List Entry) (ha : Sorted a) (hb : Sorted b) :
    restrict s e (mergeStreams a b) = mergeStreams (restrict s e a) (restrict s e b) := by
  have hra : Sorted (restrict s e a) := ha.filter _
  have hrb : Sorted (restrict s e b) := hb.filter _
  have hl : Sorted (restrict s e (mergeStreams a b)) := (sorted_mergeStreams a b ha hb).filter _
  apply Sorted.ext hl (sorted_mergeStreams _ _ hra hrb)
  intro x
  rw [mem_restrict, mem_mergeStreams _ _ ha hb, mem_mergeStreams _ _ hra hrb, mem_restrict,
    mem_restrict]
  constructor
  · rintro ⟨h | ⟨h1, h2⟩, hx⟩
    · exact Or.inl ⟨h, hx⟩
    · exact Or.inr ⟨⟨h1, hx⟩, fun y hy => h2 y ((mem_restrict _ _ _ _).1 hy).1⟩
  · rintro (⟨h, hx⟩ | ⟨⟨h1, hx⟩, h2⟩)
    · exact ⟨Or.inl h, hx⟩
    · refine ⟨Or.inr ⟨h1, ?_⟩, hx⟩
      intro y hy hpos
      exact h2 y ((mem_restrict _ _ _ _).2 ⟨hy, by rw [hpos]; exact hx⟩) hpos

theorem restrict_eq_self (s e : Key) (xs : List Entry)
    (h : ∀ x ∈ xs, keyLess x.pos.Key s = false ∧ keyLess x.pos.Key e = true) :
    restrict s e xs = xs := by
  unfold restrict
  rw [List.filter_eq_self]
  intro x hx
  simp [inRange, h x hx]

theorem stats_subtract_add (ms x : MVCCStats) : (ms.Subtract x).Add x = ms := by
  cases ms
  simp [MVCCStats.Subtract, MVCCStats.Add]

/-! ## C2: the statistics delta on success -/

theorem existingIterOf_seek_cur (batch : List Entry) (args : AddSSTableRequest) :
    (existingIterOf batch args).entries.dropWhile
      (fun x => x.pos.Less ⟨args.Key, Timestamp.zero⟩) = (existingIterOf batch args).cur := rfl

/-- C2: on success the caller's statistics afterwards equal the statistics
before, minus the statistics of the existing data restricted to the range, plus
the statistics of the merge of existing data and table over the range,
component-wise over every counter. -/
theorem stats_delta_on_success (eng : Engine) (ctx : Context) (batch : List Entry)
    (cArgs : CommandArgs) (T : List Entry) (r : Result)
    (hT : eng.NewMemSSTIterator cArgs.Args.Data = .ok T)
    (hbatch : Sorted batch) (htable : Sorted T)
    (h : (EvalAddSSTable eng ctx batch cArgs).ret = .ok r) :
    (EvalAddSSTable eng ctx batch cArgs).stats =
        (cArgs.Stats.Subtract (specExistingStats eng batch cArgs)).Add
          (specMergedStats eng batch T cArgs) ∧
      (EvalAddSSTable eng ctx batch cArgs).stats.KeyCount =
        cArgs.Stats.KeyCount - (specExistingStats eng batch cArgs).KeyCount
          + (specMergedStats eng batch T cArgs).KeyCount ∧
      (EvalAddSSTable eng ctx batch cArgs).stats.KeyBytes =
        cArgs.Stats.KeyBytes - (specExistingStats eng batch cArgs).KeyBytes
          + (specMergedStats eng batch T cArgs).KeyBytes ∧
      (EvalAddSSTable eng ctx batch cArgs).stats.ValBytes =
        cArgs.Stats.ValBytes - (specExistingStats eng batch cArgs).ValBytes
          + (specMergedStats eng batch T cArgs).ValBytes ∧
      (EvalAddSSTable eng ctx batch cArgs).stats.LiveBytes =
        cArgs.Stats.LiveBytes - (specExistingStats eng batch cArgs).LiveBytes
          + (specMergedStats eng batch T cArgs).LiveBytes ∧
      (EvalAddSSTable eng ctx batch cArgs).stats.GarbageBytes =
        cArgs.Stats.GarbageBytes - (specExistingStats eng batch cArgs).GarbageBytes
          + (specMergedStats eng batch T cArgs).GarbageBytes ∧
      (EvalAddSSTable eng ctx batch cArgs).stats.SysBytes =
        cArgs.Stats.SysBytes - (specExistingStats eng batch cArgs).SysBytes
          + (specMergedStats eng batch T cArgs).SysBytes := by
  obtain ⟨kvs, stats, hs, hv⟩ := EvalAddSSTable_ok_inv eng ctx batch cArgs r h
  have hbelow := existingIterOf_below batch cArgs.Args
  -- the existing pass visited the existing data restricted to the range
  have hkvs : kvs = recordsOf (restrict cArgs.Args.Key cArgs.Args.EndKey batch) := by
    rw [← existingIterOf_cur_sorted batch cArgs.Args hbatch]
    exact (scanSimple_ok _ _ _ hs hbelow).2
  -- the merged pass visited the merge restricted to the range
  obtain ⟨T2, hT2, hf, ⟨mkvs, hm, hstats⟩, hend⟩ := verifySSTable_ok_inv _ _ _ _ _ _ _ hv
  rw [hT] at hT2
  cases hT2
  rw [existingIterOf_seek_cur] at hm
  have hmk := (scanMerged_ok _ _ _ _ hm hbelow hend).2.2
  have hrange : ∀ e ∈ T, keyLess e.pos.Key cArgs.Args.Key = false ∧
      keyLess e.pos.Key cArgs.Args.EndKey = true := by
    intro e he
    refine ⟨firstOk_sorted_lower _ T hf htable e he, ?_⟩
    have := hend e he
    rwa [mvccLess_bound] at this
  have hmerge : restrict cArgs.Args.Key cArgs.Args.EndKey (mergeStreams batch T)
      = mergeStreams (existingIterOf batch cArgs.Args).cur T := by
    rw [restrict_mergeStreams _ _ _ _ hbatch htable, restrict_eq_self _ _ T hrange,
      existingIterOf_cur_sorted batch cArgs.Args hbatch]
  have hmain : (EvalAddSSTable eng ctx batch cArgs).stats =
      (cArgs.Stats.Subtract (specExistingStats eng batch cArgs)).Add
        (specMergedStats eng batch T cArgs) := by
    rw [(EvalAddSSTable_success eng ctx batch cArgs kvs stats hs hv).1]
    unfold specExistingStats specMergedStats
    rw [hmerge, ← hmk, ← hkvs, hstats]
  refine ⟨hmain, ?_⟩
  rw [hmain]
  simp [MVCCStats.Add, MVCCStats.Subtract]

/-- Witness for `stats_delta_on_success` on the sample input: one existing
record at key `[3]`, overwritten by the table `[3, 4, 5]`. -/
theorem stats_delta_on_success_witness :
    (EvalAddSSTable sampleEngine ⟨false⟩ sampleBatch (sampleArgs [3, 4, 5])).ret
        = .ok ⟨[3, 4, 5], 12⟩ ∧
      (EvalAddSSTable sampleEngine ⟨false⟩ sampleBatch (sampleArgs [3, 4, 5])).stats =
        ((sampleArgs [3, 4, 5]).Stats.Subtract
          (specExistingStats sampleEngine sampleBatch (sampleArgs [3, 4, 5]))).Add
          (specMergedStats sampleEngine sampleBatch
            [.record ⟨⟨[3], ⟨1, 0⟩⟩, [3]⟩, .record ⟨⟨[4], ⟨1, 0⟩⟩, [4]⟩,
              .record ⟨⟨[5], ⟨1, 0⟩⟩, [5]⟩] (sampleArgs [3, 4, 5])) :=
  ⟨(sample_eval_good ⟨false⟩).2,
    (stats_delta_on_success sampleEngine ⟨false⟩ sampleBatch (sampleArgs [3, 4, 5]) _ _
      (by simp [sampleEngine, sampleArgs]) (by unfold Sorted sampleBatch; decide)
      (by unfold Sorted; decide) (sample_eval_good ⟨false⟩).2).1⟩

/-! ## C7: idempotent re-ingestion -/

/-- C7: for a valid in-range table `T` (sorted, every entry a record with raw
key in the range) and sorted existing data `E` whose entries in the range are
records, evaluating the command on the data that already holds `T` (the merge
of `E` and `T`) succeeds and leaves the caller's statistics unchanged. -/
theorem idempotent_reingestion (eng : Engine) (ctx : Context) (E : List Entry)
    (cArgs : CommandArgs) (T : List Entry)
    (hT : eng.NewMemSSTIterator cArgs.Args.Data = .ok T)
    (hE : Sorted E) (htable : Sorted T)
    (hTrec : ∀ x ∈ T, x.isMalformed = false)
    (hTrange : ∀ x ∈ T, inRange cArgs.Args.Key cArgs.Args.EndKey x.pos.Key = true)
    (hErec : ∀ x ∈ restrict cArgs.Args.Key cArgs.Args.EndKey E, x.isMalformed = false) :
    (EvalAddSSTable eng ctx (mergeStreams E T) cArgs).ret =
        .ok { Data := cArgs.Args.Data, CRC32 := eng.CRC32 cArgs.Args.Data } ∧
      (EvalAddSSTable eng ctx (mergeStreams E T) cArgs).stats = cArgs.Stats := by
  have hrange : ∀ x ∈ T, keyLess x.pos.Key cArgs.Args.Key = false ∧
      keyLess x.pos.Key cArgs.Args.EndKey = true := by
    intro x hx
    have := hTrange x hx
    simpa [inRange] using this
  have hRE : Sorted (restrict cArgs.Args.Key cArgs.Args.EndKey E) := hE.filter _
  have hbatch : Sorted (mergeStreams E T) := sorted_mergeStreams E T hE htable
  -- the existing cursor shows the merge of the in-range existing data and the table
  have hcur : (existingIterOf (mergeStreams E T) cArgs.Args).cur =
      mergeStreams (restrict cArgs.Args.Key cArgs.Args.EndKey E) T := by
    rw [existingIterOf_cur_sorted _ _ hbatch, restrict_mergeStreams _ _ _ _ hE htable,
      restrict_eq_self _ _ T hrange]
  have hbelow := existingIterOf_below (mergeStreams E T) cArgs.Args
  have hcurrec : ∀ x ∈ (existingIterOf (mergeStreams E T) cArgs.Args).cur,
      x.isMalformed = false := by
    intro x hx
    rw [hcur] at hx
    rcases (mem_mergeStreams _ _ hRE htable x).1 hx with h | ⟨h, _⟩
    · exact hTrec x h
    · exact hErec x h
  have hTbelow : ∀ x ∈ T, x.pos.Less ⟨cArgs.Args.EndKey, Timestamp.zero⟩ = true := by
    intro x hx
    rw [mvccLess_bound]
    exact (hrange x hx).2
  have hs := scanSimple_of_records ⟨cArgs.Args.EndKey, Timestamp.zero⟩ _ hcurrec hbelow
  have hf : FirstOk ⟨cArgs.Args.Key, Timestamp.zero⟩ T := by
    cases T with
    | nil => exact Or.inl rfl
    | cons x rest =>
      cases x with
      | malformed p => simpa [Entry.isMalformed] using hTrec _ (List.mem_cons_self _ _)
      | record kv =>
        refine Or.inr ⟨kv, rest, rfl, ?_⟩
        rw [mvccLess_bound]
        exact (hrange _ (List.mem_cons_self _ _)).1
  have hm := scanMerged_of_records ⟨cArgs.Args.EndKey, Timestamp.zero⟩
    (existingIterOf (mergeStreams E T) cArgs.Args).cur T hcurrec hTrec hbelow hTbelow
  have hidem : mergeStreams (existingIterOf (mergeStreams E T) cArgs.Args).cur T =
      (existingIterOf (mergeStreams E T) cArgs.Args).cur := by
    rw [hcur]
    exact mergeStreams_idem _ _ hRE htable
  rw [hidem] at hm
  have hv : verifySSTable eng (existingIterOf (mergeStreams E T) cArgs.Args) cArgs.Args.Data
      ⟨cArgs.Args.Key, Timestamp.zero⟩ ⟨cArgs.Args.EndKey, Timestamp.zero⟩
      cArgs.Header.Timestamp.WallTime =
      .ok (eng.statsOf cArgs.Header.Timestamp.WallTime
        (recordsOf (existingIterOf (mergeStreams E T) cArgs.Args).cur)) := by
    rw [verifySSTable_tail eng (existingIterOf (mergeStreams E T) cArgs.Args) cArgs.Args.Data
      _ _ _ T _ hT hf hm, List.dropWhile_eq_nil_iff.2 hTbelow]
  have hres := EvalAddSSTable_success eng ctx (mergeStreams E T) cArgs _ _ hs hv
  refine ⟨hres.2, ?_⟩
  rw [hres.1, stats_subtract_add]

/-- Witness for `idempotent_reingestion`: the sample table ingested a second
time into data that already holds it. -/
theorem idempotent_reingestion_witness :
    (EvalAddSSTable sampleEngine ⟨false⟩ (mergeStreams sampleWideBatch sampleTable)
        (sampleArgs [3, 4, 5])).ret = .ok ⟨[3, 4, 5], 12⟩ ∧
      (EvalAddSSTable sampleEngine ⟨false⟩ (mergeStreams sampleWideBatch sampleTable)
        (sampleArgs [3, 4, 5])).stats = ⟨10, 20, 30, 0, 0, 0⟩ :=
  idempotent_reingestion sampleEngine ⟨false⟩ sampleWideBatch (sampleArgs [3, 4, 5]) sampleTable
    (by simp [sampleEngine, sampleArgs, sampleTable])
    (by unfold Sorted sampleWideBatch; decide) (by unfold Sorted sampleTable; decide)
    (by unfold sampleTable; decide) (by unfold sampleTable sampleArgs; decide)
    (by unfold sampleWideBatch sampleArgs; decide)

/-! ## C6: the tie-break of the merged pass -/

theorem takeWhile_below_pos (endKey : MVCCKey) (x : Entry) (xs : List Entry)
    (h : x.pos.Less endKey = true) :
    (x :: xs).takeWhile (fun e => e.pos.Less endKey)
      = x :: xs.takeWhile (fun e => e.pos.Less endKey) := by
  simp [List.takeWhile, h]

theorem takeWhile_below_neg (endKey : MVCCKey) (x : Entry) (xs : List Entry)
    (h : ¬ x.pos.Less endKey = true) :
    (x :: xs).takeWhile (fun e => e.pos.Less endKey) = [] := by
  simp [List.takeWhile, h]

/-- The merged pass visits the records of the merge of the two streams, each
cut at the first entry at or after the end key. -/
theorem scanMerged_ok_takeWhile (endKey : MVCCKey) (a b : List Entry) (kvs : List MVCCKeyValue)
    (h : scanMerged endKey a b = .ok kvs) :
    kvs = recordsOf (mergeStreams (a.takeWhile (fun x => x.pos.Less endKey))
      (b.takeWhile (fun x => x.pos.Less endKey))) := by
  induction a, b using scanMerged.induct endKey generalizing kvs with
  | case1 p tail x => simp [scanMerged] at h
  | case2 p tail => simp [scanMerged] at h
  | case3 kv tail p tail2 => simp [scanMerged] at h
  | case4 =>
    simp [scanMerged] at h
    simp [mergeStreams, recordsOf, h]
  | case5 x as hx ih =>
    simp only [scanMerged, hx, if_true] at h
    obtain ⟨t, ht, rfl⟩ := (emit_ok_iff _ _ _).1 h
    have := ih t ht
    simp only [List.takeWhile, mergeStreams_nil_right] at this ⊢
    simp [pos_record, hx, recordsOf, this]
  | case6 x as hx =>
    simp [scanMerged, hx] at h
    simp [List.takeWhile, pos_record, hx, mergeStreams, recordsOf, h]
  | case7 y bs hy ih =>
    simp only [scanMerged, hy, if_true] at h
    obtain ⟨t, ht, rfl⟩ := (emit_ok_iff _ _ _).1 h
    have := ih t ht
    simp only [List.takeWhile, mergeStreams_nil_left] at this ⊢
    simp [pos_record, hy, recordsOf, this]
  | case8 y bs hy =>
    simp [scanMerged, hy] at h
    simp [List.takeWhile, pos_record, hy, mergeStreams, recordsOf, h]
  | case9 x as y bs hyx hy ih =>
    simp only [scanMerged, hyx, hy, if_true] at h
    obtain ⟨t, ht, rfl⟩ := (emit_ok_iff _ _ _).1 h
    have := ih t ht
    have hy2 : (Entry.record y).pos.Less endKey = true := hy
    rw [takeWhile_below_pos _ _ _ hy2]
    cases hx : (Entry.record x).pos.Less endKey with
    | true =>
      rw [takeWhile_below_pos _ _ _ hx] at this ⊢
      rw [mergeStreams_cons_lt (.record x) (.record y) _ _ hyx]
      simp [recordsOf, this]
    | false =>
      have hx2 : ¬ (Entry.record x).pos.Less endKey = true := by simp [hx]
      rw [takeWhile_below_neg _ _ _ hx2] at this ⊢
      rw [mergeStreams_nil_left] at this ⊢
      simp [recordsOf, this]
  | case10 x as y bs hyx hy =>
    simp [scanMerged, hyx, hy] at h
    have hy2 : ¬ (Entry.record y).pos.Less endKey = true := hy
    have hx2 : ¬ (Entry.record x).pos.Less endKey = true := by
      intro hx
      exact hy (mvccLess_trans _ _ _ hyx hx)
    rw [takeWhile_below_neg _ _ _ hy2, takeWhile_below_neg _ _ _ hx2]
    simp [mergeStreams, recordsOf, h]
  | case11 x as y bs hyx hxy hx ih =>
    simp only [scanMerged, hyx, hxy, hx, if_true, if_false, Bool.false_eq_true] at h
    obtain ⟨t, ht, rfl⟩ := (emit_ok_iff _ _ _).1 h
    have := ih t ht
    have hx2 : (Entry.record x).pos.Less endKey = true := hx
    rw [takeWhile_below_pos _ _ _ hx2]
    cases hy : (Entry.record y).pos.Less endKey with
    | true =>
      rw [takeWhile_below_pos _ _ _ hy] at this ⊢
      rw [mergeStreams_cons_gt (.record x) (.record y) _ _ hyx hxy]
      simp [recordsOf, this]
    | false =>
      have hy2 : ¬ (Entry.record y).pos.Less endKey = true := by simp [hy]
      rw [takeWhile_below_neg _ _ _ hy2] at this ⊢
      rw [mergeStreams_nil_right] at this ⊢
      simp [recordsOf, this]
  | case12 x as y bs hyx hxy hx =>
    simp [scanMerged, hyx, hxy, hx] at h
    have hx2 : ¬ (Entry.record x).pos.Less endKey = true := hx
    have hy2 : ¬ (Entry.record y).pos.Less endKey = true := by
      intro hy
      exact hx (mvccLess_trans _ _ _ hxy hy)
    rw [takeWhile_below_neg _ _ _ hy2, takeWhile_below_neg _ _ _ hx2]
    simp [mergeStreams, recordsOf, h]
  | case13 x as y bs hyx hxy hy ih =>
    simp only [scanMerged, hyx, hxy, hy, if_true, if_false, Bool.false_eq_true] at h
    obtain ⟨t, ht, rfl⟩ := (emit_ok_iff _ _ _).1 h
    have := ih t ht
    have hpos : x.Key = y.Key := mvccLess_total _ _ (by simpa using hxy) (by simpa using hyx)
    have hy2 : (Entry.record y).pos.Less endKey = true := hy
    have hx2 : (Entry.record x).pos.Less endKey = true := by rw [pos_record, hpos]; exact hy
    rw [takeWhile_below_pos _ _ _ hy2, takeWhile_below_pos _ _ _ hx2,
      mergeStreams_cons_tie (.record x) (.record y) _ _ hyx hxy]
    simp [recordsOf, this]
  | case14 x as y bs hyx hxy hy =>
    simp [scanMerged, hyx, hxy, hy] at h
    have hpos : x.Key = y.Key := mvccLess_total _ _ (by simpa using hxy) (by simpa using hyx)
    have hy2 : ¬ (Entry.record y).pos.Less endKey = true := hy
    have hx2 : ¬ (Entry.record x).pos.Less endKey = true := by rw [pos_record, hpos]; exact hy
    rw [takeWhile_below_neg _ _ _ hy2, takeWhile_below_neg _ _ _ hx2]
    simp [mergeStreams, recordsOf, h]

/-- In a sorted stream exactly one entry sits at the position of a member. -/
theorem sorted_filter_pos (M : List Entry) (h : Sorted M) (x : Entry) (hx : x ∈ M) :
    M.filter (fun e => decide (e.pos = x.pos)) = [x] := by
  induction M with
  | nil => cases hx
  | cons z zs ih =>
    by_cases hz : z.pos = x.pos
    · have hzx : z = x := h.pos_inj (List.mem_cons_self _ _) hx hz
      subst hzx
      have : zs.filter (fun e => decide (e.pos = z.pos)) = [] := by
        rw [List.filter_eq_nil_iff]
        intro w hw hd
        have := h.head_lt w hw
        rw [of_decide_eq_true hd, mvccLess_irrefl] at this
        cases this
      simp [List.filter, this]
    · have hx2 : x ∈ zs := by
        rcases List.mem_cons.1 hx with e | hx2
        · exact absurd (by rw [e]) hz
        · exact hx2
      simp [List.filter, hz, ih h.tail hx2]

theorem recordsOf_filter_pos (M : List Entry) (key : MVCCKey) :
    recordsOf (M.filter (fun e => decide (e.pos = key))) =
      (recordsOf M).filter (fun kv => decide (kv.Key = key)) := by
  induction M with
  | nil => rfl
  | cons z zs ih =>
    cases z with
    | record kv =>
      by_cases hk : kv.Key = key
      · simp [List.filter, pos_record, hk, recordsOf, ih]
      · simp [List.filter, pos_record, hk, recordsOf, ih]
    | malformed p =>
      by_cases hk : p = key
      · simp [List.filter, pos_malformed, hk, recordsOf, ih]
      · simp [List.filter, pos_malformed, hk, recordsOf, ih]

theorem mem_seek_sorted (xs : List Entry) (h : Sorted xs) (s : MVCCKey) (x : Entry)
    (hx : x ∈ xs) (hs : x.pos.Less s = false) :
    x ∈ xs.dropWhile (fun e => e.pos.Less s) := by
  rw [sorted_dropWhile_eq_filter _ xs h]
  · simp [hx, hs]
  · intro a b hab ha
    cases hb : b.pos.Less s with
    | false => rfl
    | true => rw [mvccLess_trans _ _ _ hab hb] at ha; cases ha

theorem mem_below_sorted (xs : List Entry) (h : Sorted xs) (e : MVCCKey) (x : Entry)
    (hx : x ∈ xs) (he : x.pos.Less e = true) :
    x ∈ xs.takeWhile (fun y => y.pos.Less e) := by
  rw [sorted_takeWhile_eq_filter _ xs h]
  · simp [hx, he]
  · intro a b hab hb
    exact mvccLess_trans _ _ _ hab hb

/-- In the sequence visited by the merged pass, a record of the incoming stream
below the end key is the only record at its key and timestamp. -/
theorem scanMerged_filter_key (endKey : MVCCKey) (a b : List Entry) (kvs : List MVCCKeyValue)
    (key : MVCCKey) (v2 : List Nat)
    (hs : scanMerged endKey a b = .ok kvs) (ha : Sorted a) (hb : Sorted b)
    (hincoming : Entry.record ⟨key, v2⟩ ∈ b) (hlt : key.Less endKey = true) :
    kvs.filter (fun kv => decide (kv.Key = key)) = [⟨key, v2⟩] := by
  have hk := scanMerged_ok_takeWhile _ _ _ _ hs
  have hA : Sorted (a.takeWhile (fun x => x.pos.Less endKey)) :=
    List.Pairwise.sublist (List.takeWhile_sublist _) ha
  have hB : Sorted (b.takeWhile (fun x => x.pos.Less endKey)) :=
    List.Pairwise.sublist (List.takeWhile_sublist _) hb
  have hmemB : Entry.record ⟨key, v2⟩ ∈ b.takeWhile (fun x => x.pos.Less endKey) :=
    mem_below_sorted _ hb _ _ hincoming hlt
  have hmemM := (mem_mergeStreams _ _ hA hB _).2 (Or.inl hmemB)
  have hfil := sorted_filter_pos _ (sorted_mergeStreams _ _ hA hB) _ hmemM
  rw [hk, ← recordsOf_filter_pos]
  rw [pos_record] at hfil
  rw [hfil]
  rfl

/-- C6: when the existing stream and the incoming table (both in stream order)
hold a record at the same key and timestamp, every successful `verifySSTable`
returns the statistics of a merged sequence, visited with the existing
iterator first and the table iterator second, that holds this key and
timestamp exactly once, with the incoming table's value; and when the two
streams consist of just these two records, inside the range, `verifySSTable`
succeeds and returns the statistics of the incoming record alone. -/
theorem verifySSTable_no_double_count (eng : Engine) (existingIter : SimpleIterator)
    (data : List Nat) (start endKey : Key) (nowNanos : Int) (T : List Entry)
    (key : MVCCKey) (v1 v2 : List Nat)
    (hT : eng.NewMemSSTIterator data = .ok T)
    (hE : Sorted existingIter.entries) (hTs : Sorted T)
    (_hexisting : Entry.record ⟨key, v1⟩ ∈ existingIter.entries)
    (hincoming : Entry.record ⟨key, v2⟩ ∈ T) :
    (∀ stats,
      verifySSTable eng existingIter data ⟨start, Timestamp.zero⟩ ⟨endKey, Timestamp.zero⟩
        nowNanos = .ok stats →
      ∃ kvs,
        scanMerged ⟨endKey, Timestamp.zero⟩ (existingIter.Seek ⟨start, Timestamp.zero⟩).cur
          (({ entries := T, cur := T } : SimpleIterator).Seek ⟨start, Timestamp.zero⟩).cur
          = .ok kvs ∧
        stats = eng.statsOf nowNanos kvs ∧
        kvs.filter (fun kv => decide (kv.Key = key)) = [⟨key, v2⟩]) ∧
    (existingIter.entries = [.record ⟨key, v1⟩] → T = [.record ⟨key, v2⟩] →
      keyLess key.Key start = false → keyLess key.Key endKey = true →
      verifySSTable eng existingIter data ⟨start, Timestamp.zero⟩ ⟨endKey, Timestamp.zero⟩
        nowNanos = .ok (eng.statsOf nowNanos [⟨key, v2⟩])) := by
  refine ⟨?_, ?_⟩
  · intro stats hv
    obtain ⟨T2, hT2, hf, ⟨kvs, hm, hstats⟩, hend⟩ := verifySSTable_ok_inv _ _ _ _ _ _ _ hv
    rw [hT] at hT2
    cases hT2
    have hseek : (({ entries := T, cur := T } : SimpleIterator).Seek
        ⟨start, Timestamp.zero⟩).cur = T := hf.seek
    have hA : Sorted (existingIter.entries.dropWhile
        (fun x => x.pos.Less ⟨start, Timestamp.zero⟩)) :=
      List.Pairwise.sublist (List.dropWhile_sublist _) hE
    refine ⟨kvs, ?_, hstats, ?_⟩
    · rw [hseek]
      exact hm
    · exact scanMerged_filter_key _ _ _ _ key v2 hm hA hTs hincoming
        (hend _ hincoming)
  · intro h1 h2 hlo hhi
    subst h2
    have hlo2 : key.Less ⟨start, Timestamp.zero⟩ = false := by rw [mvccLess_bound]; exact hlo
    have hhi2 : key.Less ⟨endKey, Timestamp.zero⟩ = true := by rw [mvccLess_bound]; exact hhi
    have hf : FirstOk ⟨start, Timestamp.zero⟩ [.record ⟨key, v2⟩] :=
      Or.inr ⟨⟨key, v2⟩, [], rfl, hlo2⟩
    have hm : scanMerged ⟨endKey, Timestamp.zero⟩
        (existingIter.entries.dropWhile (fun x => x.pos.Less ⟨start, Timestamp.zero⟩))
        [.record ⟨key, v2⟩] = .ok [⟨key, v2⟩] := by
      simp [h1, List.dropWhile, pos_record, hlo2, hhi2, scanMerged, mvccLess_irrefl, emit]
    rw [verifySSTable_tail eng existingIter data _ _ _ _ _ hT hf hm]
    simp [List.dropWhile, pos_record, hhi2]

/-- Witness for `verifySSTable_no_double_count`: existing `([3], 1, [7, 7, 7])`
and incoming `([3], 1, [3])` on the sample range; `verifySSTable` returns one
key and one value byte, the incoming record's. -/
theorem verifySSTable_no_double_count_witness :
    verifySSTable sampleEngine { entries := sampleTieBatch, cur := sampleTieBatch } [3]
        ⟨[2], Timestamp.zero⟩ ⟨[9], Timestamp.zero⟩ 5
        = .ok (sampleEngine.statsOf 5 [⟨⟨[3], ⟨1, 0⟩⟩, [3]⟩]) ∧
      sampleEngine.statsOf 5 [⟨⟨[3], ⟨1, 0⟩⟩, [3]⟩] = ⟨1, 1, 1, 0, 0, 0⟩ ∧
      ∃ kvs,
        scanMerged ⟨[9], Timestamp.zero⟩
          (({ entries := sampleTieBatch, cur := sampleTieBatch } : SimpleIterator).Seek
            ⟨[2], Timestamp.zero⟩).cur
          (({ entries := [.record ⟨⟨[3], ⟨1, 0⟩⟩, [3]⟩],
              cur := [.record ⟨⟨[3], ⟨1, 0⟩⟩, [3]⟩] } : SimpleIterator).Seek
            ⟨[2], Timestamp.zero⟩).cur = .ok kvs ∧
        sampleEngine.statsOf 5 [⟨⟨[3], ⟨1, 0⟩⟩, [3]⟩] = sampleEngine.statsOf 5 kvs ∧
        kvs.filter (fun kv => decide (kv.Key = ⟨[3], ⟨1, 0⟩⟩)) = [⟨⟨[3], ⟨1, 0⟩⟩, [3]⟩] :=
  ⟨(verifySSTable_no_double_count sampleEngine
      { entries := sampleTieBatch, cur := sampleTieBatch } [3] [2] [9] 5
      [.record ⟨⟨[3], ⟨1, 0⟩⟩, [3]⟩] ⟨[3], ⟨1, 0⟩⟩ [7, 7, 7] [3]
      (by simp [sampleEngine]) (by unfold Sorted sampleTieBatch; decide)
      (by unfold Sorted; decide) (by simp [sampleTieBatch]) (by simp)).2
      rfl rfl (by decide) (by decide),
    by simp [sampleEngine],
    (verifySSTable_no_double_count sampleEngine
      { entries := sampleTieBatch, cur := sampleTieBatch } [3] [2] [9] 5
      [.record ⟨⟨[3], ⟨1, 0⟩⟩, [3]⟩] ⟨[3], ⟨1, 0⟩⟩ [7, 7, 7] [3]
      (by simp [sampleEngine]) (by unfold Sorted sampleTieBatch; decide)
      (by unfold Sorted; decide) (by simp [sampleTieBatch]) (by simp)).1 _
      ((verifySSTable_no_double_count sampleEngine
        { entries := sampleTieBatch, cur := sampleTieBatch } [3] [2] [9] 5
        [.record ⟨⟨[3], ⟨1, 0⟩⟩, [3]⟩] ⟨[3], ⟨1, 0⟩⟩ [7, 7, 7] [3]
        (by simp [sampleEngine]) (by unfold Sorted sampleTieBatch; decide)
        (by unfold Sorted; decide) (by simp [sampleTieBatch]) (by simp)).2
        rfl rfl (by decide) (by decide))⟩

end AddSSTable
